import Mathlib

/-!
# The autocomplete trie of `main.cpp`

A verification development for the class `Trie` of `src/main.cpp`: a prefix
tree whose nodes cache the most frequent word below them.

## The embedding

The C++ object graph is embedded as a heap with explicit state passing.

* A `Node*` is an `Option Addr`: `none` is `nullptr`.
* An address is the list of characters that leads from `root_` to the node.
  `new Node()` is only ever executed to fill the slot `root->children[c]`
  (line 76), and the model allocates that node at the address `root ++ [c]`.
  A node is owned by exactly one slot, so this address is fresh whenever the
  allocation runs (`WF.fresh_slot` below proves it on every reachable heap).
  Pointer comparison (`last_node_ != target`) is comparison of addresses.
* `std::unordered_map<char, Node*>` is a function from keys to
  `Option (Option Addr)`: the outer `none` is "key absent", `some none` is a
  key mapped to `nullptr` (what `operator[]` leaves behind when a lookup
  misses), `some (some a)` is a key mapped to a node.
* `std::string` is `List Char`; `word` together with the index `from` is the
  suffix `word[from..]` that is still to be walked.
* `uint64_t` is `Nat`, with `% 2 ^ 64` where the source adds.
* Dereferencing a null or dangling pointer is undefined behaviour in C++; the
  embedding returns `none` there, and `Fault.nullDeref` in the queries. The
  `while` loop of `FindContinuation` takes a fuel argument and reports
  `Fault.outOfFuel` when it runs out; an outcome other than that one is the
  same for every larger fuel (`loop_mono`, `outputs_mono`).
* A null entry that `operator[]` leaves in a `children` map is kept in the
  model, although no operation of the class can tell it from an absent key.
-/

namespace KisProject

/-- The address of a node: the characters on the way from `root_` to it. -/
abbrev Addr := List Char

/-- `struct Node` (lines 6-11). -/
structure Node where
  times : Nat
  children : Char → Option (Option Addr)
  max_child : Option Addr
  next_probable_letter : Char

/-- The value of `new Node()`: the default member initialisers of lines 7-10. -/
def Node.fresh : Node :=
  { times := 0, children := fun _ => none, max_child := none, next_probable_letter := '0' }

/-- The heap: which addresses hold a node, and what it holds. -/
abbrev Heap := Addr → Option Node

/-- Store a node at an address. -/
def Heap.set (h : Heap) (a : Addr) (n : Node) : Heap :=
  fun x => if x = a then some n else h x

/-- Assign one slot of an `unordered_map`. -/
def setSlot (m : Char → Option (Option Addr)) (c : Char) (v : Option Addr) :
    Char → Option (Option Addr) :=
  fun k => if k = c then some v else m k

/-- The two assignments `max_child = m; next_probable_letter = c;` (lines 81-82, 89-90). -/
def Node.setCache (n : Node) (m : Addr) (c : Char) : Node :=
  { n with max_child := some m, next_probable_letter := c }

/-- The modulus of `uint64_t` arithmetic. -/
def U64 : Nat := 18446744073709551616

/-- The address of `root_`. -/
def root_ : Addr := []

/-- Lines 74-77 of `Trie::AddWordTo`, on the dereferenced `root`:
`Node*& next = root->children[c]; if(next == nullptr) next = new Node();`.
The result is the heap afterwards and `next`. -/
def openSlot (h : Heap) (root : Addr) (n : Node) (c : Char) : Heap × Addr :=
  match n.children c with
  | some (some x) => (h, x)
  | _ =>
    ((h.set root { n with children := setSlot n.children c (some (root ++ [c])) }).set
      (root ++ [c]) Node.fresh, root ++ [c])

/-- The `if` statement that `Trie::AddWordTo` runs on `root` once the end of
the word is known (lines 80-83, and lines 88-91 with `end_node = root`):
`if(root->max_child == nullptr || end_node->times > root->max_child->times)`
`{ root->max_child = end_node; root->next_probable_letter = letter; }`. -/
def updateMaxChild (h : Heap) (root end_node : Addr) (letter : Char) : Option Heap :=
  match h root with
  | none => none
  | some r =>
    match r.max_child with
    | none => some (h.set root (r.setCache end_node letter))
    | some m =>
      match h end_node, h m with
      | some en, some mn =>
        if en.times > mn.times then some (h.set root (r.setCache end_node letter))
        else some h
      | _, _ => none

/-- `Trie::AddWordTo` (lines 71-93). The arguments `word` and `from` of the
source are the list `word[from..]`; the result is the new heap and `end_node`. -/
def AddWordTo (h : Heap) (root : Addr) : List Char → Nat → Option (Heap × Addr)
  | [], times =>
    match h root with
    | none => none
    | some n =>
      -- root->times += times;
      let h1 := h.set root { n with times := (n.times + times) % U64 }
      match updateMaxChild h1 root root '\x00' with
      | none => none
      | some h2 => some (h2, root)
  | c :: rest, times =>
    match h root with
    | none => none
    | some n =>
      let hn := openSlot h root n c
      -- Node* end_node = AddWordTo(next, word, from + 1, times);
      match AddWordTo hn.1 hn.2 rest times with
      | none => none
      | some (h2, end_node) =>
        match updateMaxChild h2 root end_node c with
        | none => none
        | some h3 => some (h3, end_node)

/-- The loop of `Trie::Find` (lines 112-118), from a non-null `current`.
`current->children[c]` is `operator[]`: a missing key is inserted with the
value `nullptr`. -/
def FindLoop (h : Heap) (current : Addr) : List Char → Option (Heap × Addr)
  | [] => some (h, current)
  | c :: cs =>
    match h current with
    | none => none
    | some n =>
      match n.children c with
      | none => some (h.set current { n with children := setSlot n.children c none }, current)
      | some none => some (h, current)
      | some (some next) => FindLoop h next cs

/-- `Trie::Find` (lines 107-120). -/
def Find (h : Heap) (root : Option Addr) (word : List Char) : Option (Heap × Option Addr) :=
  match root with
  | none => some (h, none)
  | some r =>
    match FindLoop h r word with
    | none => none
    | some (h1, a) => some (h1, some a)

/-- The state of a `Trie` object (lines 35-37); `root_` never changes and is
the constant address `root_`. -/
structure Trie where
  heap : Heap
  last_node_ : Option Addr
  last_word : List Char

/-- `Trie::Trie()` (line 40). -/
def Trie.empty : Trie :=
  { heap := fun a => if a = root_ then some Node.fresh else none,
    last_node_ := none, last_word := [] }

/-- `Trie::AddWord` (lines 95-97). -/
def AddWord (t : Trie) (word : List Char) (times : Nat) : Option Trie :=
  match AddWordTo t.heap root_ word times with
  | none => none
  | some (h1, _) => some { t with heap := h1 }

/-- Why a call did not return: it dereferenced a null (or dangling) pointer,
which is undefined behaviour in C++, or the fuel given to the model ran out. -/
inductive Fault where
  | nullDeref
  | outOfFuel
  deriving DecidableEq

/-- Outcomes of calls can be compared. -/
instance exceptDecEq {ε α : Type} [DecidableEq ε] [DecidableEq α] : DecidableEq (Except ε α)
  | Except.ok a, Except.ok b =>
    if h : a = b then isTrue (by rw [h]) else isFalse (fun hh => h (Except.ok.inj hh))
  | Except.error a, Except.error b =>
    if h : a = b then isTrue (by rw [h]) else isFalse (fun hh => h (Except.error.inj hh))
  | Except.ok _, Except.error _ => isFalse (fun hh => Except.noConfusion hh)
  | Except.error _, Except.ok _ => isFalse (fun hh => Except.noConfusion hh)

/-- The `while` loop of `Trie::FindContinuation` (lines 131-134). It runs on
the member `last_node_` itself. When `children[next_probable_letter]` is null
(a null entry, or a key that `operator[]` has just inserted), `last_node_`
becomes null, the loop test still passes because `target` is not null, and the
next iteration dereferences null. The result is the final `last_node_` and
`result`. -/
def FindContinuationLoop (h : Heap) (target : Addr) :
    Nat → Addr → List Char → Except Fault (Addr × List Char)
  | fuel, last, result =>
    if last = target then Except.ok (last, result)
    else
      match fuel with
      | 0 => Except.error Fault.outOfFuel
      | fuel + 1 =>
        match h last with
        | none => Except.error Fault.nullDeref
        | some n =>
          match n.children n.next_probable_letter with
          | some (some next) =>
            FindContinuationLoop h target fuel next (result ++ [n.next_probable_letter])
          | _ => Except.error Fault.nullDeref

/-- `Trie::FindContinuation` (lines 122-137): the returned string and the
state the call leaves behind. -/
def FindContinuation (fuel : Nat) (t : Trie) : Except Fault (List Char × Trie) :=
  match t.last_node_ with
  | none => Except.ok (t.last_word, t)
  | some ln =>
    match t.heap ln with
    | none => Except.error Fault.nullDeref
    | some n =>
      match n.max_child with
      | none => Except.ok (t.last_word, t)
      | some target =>
        match FindContinuationLoop t.heap target fuel ln t.last_word with
        | Except.error e => Except.error e
        | Except.ok r => Except.ok (r.2, { t with last_node_ := some r.1 })

/-- `Trie::Request` (lines 139-144). -/
def Request (fuel : Nat) (t : Trie) (pfx : List Char) : Except Fault (List Char × Trie) :=
  match Find t.heap (some root_) pfx with
  | none => Except.error Fault.nullDeref
  | some r => FindContinuation fuel { heap := r.1, last_node_ := r.2, last_word := pfx }

/-- `Trie::Append` (lines 146-151). -/
def Append (fuel : Nat) (t : Trie) (appendix : List Char) : Except Fault (List Char × Trie) :=
  match Find t.heap t.last_node_ appendix with
  | none => Except.error Fault.nullDeref
  | some r =>
    FindContinuation fuel
      { heap := r.1, last_node_ := r.2, last_word := t.last_word ++ appendix }

/-- A sequence of `AddWord` calls. -/
def addWords (t : Trie) : List (List Char × Nat) → Option Trie
  | [] => some t
  | (w, c) :: ops =>
    match AddWord t w c with
    | none => none
    | some t1 => addWords t1 ops

/-- The trie built by a sequence of `AddWord` calls, starting from `Trie()`. -/
def build (ops : List (List Char × Nat)) : Option Trie := addWords Trie.empty ops

/-- `Append` calls in sequence, after a call that returned `r.1` and left the
state `r.2`; the result is the last call's. -/
def appends (fuel : Nat) :
    List Char × Trie → List (List Char) → Except Fault (List Char × Trie)
  | r, [] => Except.ok r
  | r, s :: ss =>
    match Append fuel r.2 s with
    | Except.error e => Except.error e
    | Except.ok r1 => appends fuel r1 ss

/-- A query session: `Request(p)` followed by `Append(s)` for each `s` of `ss`. -/
def session (fuel : Nat) (t : Trie) (p : List Char) (ss : List (List Char)) :
    Except Fault (List Char × Trie) :=
  match Request fuel t p with
  | Except.error e => Except.error e
  | Except.ok r => appends fuel r ss

/-- A call on a `Trie` object. -/
inductive Call where
  | addWord (word : String) (times : Nat)
  | request (pfx : String)
  | append (appendix : String)

/-- Run a list of calls on a `Trie`, collecting what the queries return. -/
def run (fuel : Nat) : Trie → List Call → Except Fault (List String × Trie)
  | t, [] => Except.ok ([], t)
  | t, Call.addWord w c :: cs =>
    match AddWord t w.toList c with
    | none => Except.error Fault.nullDeref
    | some t1 => run fuel t1 cs
  | t, Call.request p :: cs =>
    match Request fuel t p.toList with
    | Except.error e => Except.error e
    | Except.ok r =>
      match run fuel r.2 cs with
      | Except.error e => Except.error e
      | Except.ok r1 => Except.ok (String.mk r.1 :: r1.1, r1.2)
  | t, Call.append s :: cs =>
    match Append fuel t s.toList with
    | Except.error e => Except.error e
    | Except.ok r =>
      match run fuel r.2 cs with
      | Except.error e => Except.error e
      | Except.ok r1 => Except.ok (String.mk r.1 :: r1.1, r1.2)

/-- What the queries of a list of calls on a fresh `Trie` return. -/
def outputs (fuel : Nat) (cs : List Call) : Except Fault (List String) :=
  match run fuel Trie.empty cs with
  | Except.error e => Except.error e
  | Except.ok r => Except.ok r.1

/-- The largest `uint64_t`. -/
def maxU64 : Nat := 18446744073709551615

/-! ## Reading the heap

The fields of the node at an address; an address without a node reads as a
freshly constructed node. -/

/-- The field `times` of the node at `a`. -/
def timesAt (h : Heap) (a : Addr) : Nat :=
  match h a with
  | some n => n.times
  | none => 0

/-- The field `max_child` of the node at `a`. -/
def cacheAt (h : Heap) (a : Addr) : Option Addr :=
  match h a with
  | some n => n.max_child
  | none => none

/-- The field `next_probable_letter` of the node at `a`. -/
def letterAt (h : Heap) (a : Addr) : Char :=
  match h a with
  | some n => n.next_probable_letter
  | none => '0'

/-- The slot `children[k]` of the node at `a`. -/
def slotAt (h : Heap) (a : Addr) (k : Char) : Option (Option Addr) :=
  match h a with
  | some n => n.children k
  | none => none

/-- The test `max_child == nullptr || end_node->times > max_child->times`. -/
def beats (h : Heap) (e : Addr) (old : Option Addr) : Prop :=
  match old with
  | none => True
  | some m => timesAt h m < timesAt h e

instance beatsDecidable (h : Heap) (e : Addr) (old : Option Addr) :
    Decidable (beats h e old) := by
  unfold beats; cases old <;> infer_instance

/-- The nodes between `root` and `e`, both included. -/
def OnPath (root e a : Addr) : Prop := root <+: a ∧ a <+: e

instance onPathDecidable (root e a : Addr) : Decidable (OnPath root e a) := by
  unfold OnPath; infer_instance

/-! ## Invariants, postconditions and the vocabulary of the claims -/

/-- The shape of the heap that every operation of the class maintains: the
root exists, a slot that holds a node holds the node one character further,
every node other than the root sits in the slot of its parent, and a cached
pointer is never dangling. -/
structure WF (h : Heap) : Prop where
  root : (h root_).isSome
  slot_sound : ∀ a k x, slotAt h a k = some (some x) → x = a ++ [k] ∧ (h x).isSome
  slot_complete : ∀ a k, (h (a ++ [k])).isSome → slotAt h a k = some (some (a ++ [k]))
  cache_alloc : ∀ a m, cacheAt h a = some m → (h m).isSome

/-- What lines 74-77 do to the heap. -/
structure OpenPost (h : Heap) (root : Addr) (c : Char) (h1 : Heap) : Prop where
  wf : WF h1
  alloc : ∀ a, (h1 a).isSome = ((h a).isSome || decide (a = root ++ [c]))
  times : ∀ a, timesAt h1 a = timesAt h a
  cache : ∀ a, cacheAt h1 a = cacheAt h a
  letter : ∀ a, letterAt h1 a = letterAt h a
  slot : ∀ a k, slotAt h1 a k =
    if a = root ∧ k = c then some (some (root ++ [c])) else slotAt h a k

/-- What the `if` statement of lines 80-83 and 88-91 does to the heap. -/
structure UpdatePost (h : Heap) (root e : Addr) (l : Char) (h1 : Heap) : Prop where
  alloc : ∀ a, (h1 a).isSome = (h a).isSome
  times : ∀ a, timesAt h1 a = timesAt h a
  slot : ∀ a k, slotAt h1 a k = slotAt h a k
  cache : ∀ a, cacheAt h1 a =
    if a = root ∧ beats h e (cacheAt h root) then some e else cacheAt h a
  letter : ∀ a, letterAt h1 a =
    if a = root ∧ beats h e (cacheAt h root) then l else letterAt h a

/-- What `AddWordTo(root, word, from, times)` does to the heap, field by
field; `e` is the address of the end of the word. A node on the path has its
cache replaced exactly when the end node beats the node it cached before. -/
structure AddPost (h : Heap) (root e : Addr) (c : Nat) (h1 : Heap) : Prop where
  alloc : ∀ a, (h1 a).isSome = ((h a).isSome || decide (OnPath root e a))
  times : ∀ a, timesAt h1 a = if a = e then (timesAt h a + c) % U64 else timesAt h a
  slot : ∀ a k, slotAt h1 a k =
    if root <+: a ∧ a ++ [k] <+: e then some (some (a ++ [k])) else slotAt h a k
  cache : ∀ a, cacheAt h1 a =
    if OnPath root e a ∧ beats h1 e (cacheAt h a) then some e else cacheAt h a
  letter : ∀ a, letterAt h1 a =
    if OnPath root e a ∧ beats h1 e (cacheAt h a) then (e.drop a.length).headD '\x00'
    else letterAt h a

/-- The invariant of the cached pointers (I1 of the specification). A node
whose `max_child` is null is the root of a trie into which nothing was
inserted. Otherwise, `max_child` is at or below the node, its `times` is
maximal there, and `next_probable_letter` is `'\0'` when `max_child` is the
node itself and else leads to a child that caches the same node. -/
structure Good (h : Heap) : Prop where
  wf : WF h
  pristine : ∀ a, (h a).isSome → cacheAt h a = none →
    a = root_ ∧ timesAt h root_ = 0 ∧ ∀ d, (h d).isSome → d = root_
  chain : ∀ a m, cacheAt h a = some m →
    a <+: m ∧ (m = a → letterAt h a = '\x00') ∧
      (m ≠ a → cacheAt h (a ++ [letterAt h a]) = some m)
  max : ∀ a m d, cacheAt h a = some m → a <+: d → timesAt h d ≤ timesAt h m

/-- The sum of the counts of the calls `AddWord(w, _)` in a sequence of calls
(the mathematical sum, not reduced modulo `2 ^ 64`). -/
def countOf : List (List Char × Nat) → List Char → Nat
  | [], _ => 0
  | (w1, c) :: ops, w => (if w1 = w then c else 0) + countOf ops w

/-- No word of the sequence is given a total count that leaves `uint64_t`. -/
def NoOverflow (ops : List (List Char × Nat)) : Prop := ∀ w, countOf ops w < U64

/-- Every call of the sequence has a positive count. -/
def PositiveCounts (ops : List (List Char × Nat)) : Prop := ∀ o ∈ ops, 0 < o.2

/-- The word `w` is the argument of some call of the sequence. -/
def Inserted (ops : List (List Char × Nat)) (w : List Char) : Prop := ∃ o ∈ ops, o.1 = w

/-- The only change a query makes to the heap: `operator[]` may turn absent
keys into keys mapped to `nullptr`. -/
structure NullsAdded (h h1 : Heap) : Prop where
  alloc : ∀ a, (h1 a).isSome = (h a).isSome
  times : ∀ a, timesAt h1 a = timesAt h a
  cache : ∀ a, cacheAt h1 a = cacheAt h a
  letter : ∀ a, letterAt h1 a = letterAt h a
  slot : ∀ a k x, slotAt h1 a k = some (some x) ↔ slotAt h a k = some (some x)

/-- The node `d` is `a` or can be reached from `a` through `children` slots. -/
inductive Descendant (h : Heap) : Addr → Addr → Prop where
  | self (a : Addr) : Descendant h a a
  | child {a x d : Addr} (k : Char) :
      slotAt h a k = some (some x) → Descendant h x d → Descendant h a d

/-- The node reached from `a` by following the `children` slots along `w`,
if every slot on the way holds a node. -/
def nodeAt (h : Heap) : Addr → List Char → Option Addr
  | a, [] => some a
  | a, c :: cs =>
    match slotAt h a c with
    | some (some x) => nodeAt h x cs
    | _ => none

/-- The pointer `last_node_` is null or points to a node of the heap. -/
def LastOk (t : Trie) : Prop := ∀ ln, t.last_node_ = some ln → (t.heap ln).isSome

/-- The string a query returns, without the state it leaves. -/
def answer (r : Except Fault (List Char × Trie)) : Except Fault (List Char) :=
  match r with
  | Except.error e => Except.error e
  | Except.ok x => Except.ok x.1

/-- The text typed through the `Append` calls of a list of calls. -/
def appended : List Call → List Char
  | [] => []
  | Call.append s :: cs => s.toList ++ appended cs
  | _ :: cs => appended cs

/-- A list of calls without a `Request`. -/
def NoRequest (cs : List Call) : Prop := ∀ c ∈ cs, ∀ p, c ≠ Call.request p

/-- A state of the `Trie` object that some list of calls on `Trie()` leaves. -/
def Reachable (t : Trie) : Prop :=
  ∃ fuel cs outs, run fuel Trie.empty cs = Except.ok (outs, t)

/-- `Trie::WordsCount`: the entries of the `unordered_map<string, uint64_t>`,
in the order in which the keys were inserted. -/
abbrev WordsCount := List (List Char × Nat)

/-- `++words[k]`: `operator[]` inserts a missing key with the value 0. -/
def bump : WordsCount → List Char → WordsCount
  | [], k => [(k, (0 + 1) % U64)]
  | (k1, n) :: ws, k =>
    if k1 = k then (k1, (n + 1) % U64) :: ws else (k1, n) :: bump ws k

/-- The outer loop of `Trie::ParseText` (lines 61-67) on `text[it1..]`. The
first inner loop stops at a space only; the second skips spaces and newlines.
Every iteration consumes a character, so `text.length()` iterations are
enough, and the fuel counts them. -/
def ParseTextLoop : Nat → List Char → WordsCount → WordsCount
  | 0, _, words => words
  | fuel + 1, rest, words =>
    match rest with
    | [] => words
    | _ :: _ =>
      -- for(; it2 < length && text[it2] != ' ' ; ++it2);
      let word := rest.takeWhile (fun c => c != ' ')
      let it2 := rest.dropWhile (fun c => c != ' ')
      -- for(; it2 < length && (text[it2] == ' ' || text[it2] == '\n') ; ++it2);
      ParseTextLoop fuel (it2.dropWhile (fun c => c == ' ' || c == '\n')) (bump words word)

/-- `Trie::ParseText` (lines 57-69). -/
def ParseText (text : List Char) : WordsCount := ParseTextLoop text.length text []

/-- A list of calls without an `AddWord`: queries only. -/
def NoAddWord (cs : List Call) : Prop := ∀ c ∈ cs, ∀ w n, c ≠ Call.addWord w n

/-- The value of `last_node_` that a list of calls on `Trie()` leaves
(`none` also when a call does not return). -/
def lastNodeAfter (fuel : Nat) (cs : List Call) : Option Addr :=
  match run fuel Trie.empty cs with
  | Except.error _ => none
  | Except.ok r => r.2.last_node_

/-- Between `h` and `h1` the `children` maps have changed in one way only:
absent keys may have become keys mapped to `nullptr`. -/
def OnlyNulls (h h1 : Heap) : Prop :=
  ∀ a k, slotAt h1 a k = slotAt h a k ∨ (slotAt h a k = none ∧ slotAt h1 a k = some none)

/-! ## Elementary facts about heap updates -/

theorem Heap.set_same (h : Heap) (a : Addr) (n : Node) : h.set a n a = some n := by
  simp [Heap.set]

theorem Heap.set_other (h : Heap) {a x : Addr} (n : Node) (hx : x ≠ a) : h.set a n x = h x := by
  simp [Heap.set, hx]

theorem timesAt_set (h : Heap) (a x : Addr) (n : Node) :
    timesAt (h.set a n) x = if x = a then n.times else timesAt h x := by
  unfold timesAt Heap.set; split_ifs <;> rfl

theorem cacheAt_set (h : Heap) (a x : Addr) (n : Node) :
    cacheAt (h.set a n) x = if x = a then n.max_child else cacheAt h x := by
  unfold cacheAt Heap.set; split_ifs <;> rfl

theorem letterAt_set (h : Heap) (a x : Addr) (n : Node) :
    letterAt (h.set a n) x = if x = a then n.next_probable_letter else letterAt h x := by
  unfold letterAt Heap.set; split_ifs <;> rfl

theorem slotAt_set (h : Heap) (a x : Addr) (n : Node) (k : Char) :
    slotAt (h.set a n) x k = if x = a then n.children k else slotAt h x k := by
  unfold slotAt Heap.set; split_ifs <;> rfl

theorem isSome_set (h : Heap) (a x : Addr) (n : Node) :
    (h.set a n x).isSome = (decide (x = a) || (h x).isSome) := by
  unfold Heap.set; split_ifs with hx <;> simp [hx]

theorem timesAt_of_eq {h : Heap} {a : Addr} {n : Node} (hn : h a = some n) :
    timesAt h a = n.times := by
  simp [timesAt, hn]

theorem cacheAt_of_eq {h : Heap} {a : Addr} {n : Node} (hn : h a = some n) :
    cacheAt h a = n.max_child := by
  simp [cacheAt, hn]

theorem letterAt_of_eq {h : Heap} {a : Addr} {n : Node} (hn : h a = some n) :
    letterAt h a = n.next_probable_letter := by
  simp [letterAt, hn]

theorem slotAt_of_eq {h : Heap} {a : Addr} {n : Node} (hn : h a = some n) (k : Char) :
    slotAt h a k = n.children k := by
  simp [slotAt, hn]

theorem isSome_of_cacheAt {h : Heap} {a m : Addr} (hc : cacheAt h a = some m) :
    (h a).isSome := by
  unfold cacheAt at hc; cases hn : h a <;> simp_all

theorem isSome_of_slotAt {h : Heap} {a : Addr} {k : Char} {v : Option Addr}
    (hs : slotAt h a k = some v) : (h a).isSome := by
  unfold slotAt at hs; cases hn : h a <;> simp_all

/-! ## Well-formed heaps -/

/-- The address that `new Node()` receives is free whenever line 76 runs. -/
theorem WF.fresh_slot {h : Heap} (wf : WF h) (a : Addr) (k : Char)
    (hk : ∀ x, slotAt h a k ≠ some (some x)) : h (a ++ [k]) = none := by
  cases hx : h (a ++ [k]) with
  | none => rfl
  | some n => exact absurd (wf.slot_complete a k (by simp [hx])) (hk _)

theorem WF.parent {h : Heap} (wf : WF h) (a : Addr) (k : Char)
    (hk : (h (a ++ [k])).isSome) : (h a).isSome :=
  isSome_of_slotAt (wf.slot_complete a k hk)

/-- Nodes exist along every prefix of an existing node. -/
theorem WF.prefix_closed {h : Heap} (wf : WF h) :
    ∀ (d a : Addr), a <+: d → (h d).isSome → (h a).isSome := by
  intro d
  induction d using List.reverseRecOn with
  | nil =>
    intro a ha _
    have : a = [] := List.prefix_nil.mp ha
    subst this; exact wf.root
  | append_singleton d k ih =>
    intro a ha hd
    rcases List.prefix_concat_iff.mp ha with h1 | h1
    · subst h1; exact hd
    · exact ih a h1 (wf.parent d k hd)

/-! ## The effect of `AddWordTo` -/

theorem append_singleton_ne (a : Addr) (k : Char) : a ++ [k] ≠ a := by
  intro h
  have := congrArg List.length h
  simp at this

theorem openSlot_spec {h : Heap} (wf : WF h) {root : Addr} {n : Node} (hn : h root = some n)
    (c : Char) :
    (openSlot h root n c).2 = root ++ [c] ∧ OpenPost h root c (openSlot h root n c).1 := by
  have hslot : slotAt h root c = n.children c := slotAt_of_eq hn c
  by_cases hx : ∃ x, n.children c = some (some x)
  · obtain ⟨x, hx⟩ := hx
    have hxx := wf.slot_sound root c x (by rw [hslot, hx])
    have e1 : openSlot h root n c = (h, x) := by simp [openSlot, hx]
    rw [e1]
    refine ⟨hxx.1, wf, ?_, fun _ => rfl, fun _ => rfl, fun _ => rfl, ?_⟩
    · intro a
      by_cases ha : a = root ++ [c]
      · subst ha; rw [← hxx.1]; simp [hxx.2]
      · simp [ha]
    · intro a k
      split_ifs with hak
      · rw [hak.1, hak.2, hslot, hx, hxx.1]
      · rfl
  · have hfree : h (root ++ [c]) = none :=
      wf.fresh_slot root c (fun x hc => hx ⟨x, by rw [← hslot, hc]⟩)
    obtain ⟨n1, e1, ht, hm, hl, hc⟩ : ∃ n1 : Node, openSlot h root n c =
        ((h.set root n1).set (root ++ [c]) Node.fresh, root ++ [c]) ∧ n1.times = n.times ∧
        n1.max_child = n.max_child ∧ n1.next_probable_letter = n.next_probable_letter ∧
        n1.children = setSlot n.children c (some (root ++ [c])) := by
      refine ⟨{ n with children := setSlot n.children c (some (root ++ [c])) }, ?_,
        rfl, rfl, rfl, rfl⟩
      unfold openSlot
      split
      · rename_i x hc; exact absurd ⟨x, hc⟩ hx
      · rfl
    rw [e1]
    have hne := append_singleton_ne root c
    have halloc : ∀ a, (((h.set root n1).set (root ++ [c]) Node.fresh) a).isSome
          = ((h a).isSome || decide (a = root ++ [c])) := by
      intro a
      rw [isSome_set, isSome_set]
      by_cases h1 : a = root ++ [c]
      · simp [h1]
      · by_cases h2 : a = root
        · simp [h2, hn]
        · simp [h1, h2]
    have htimes : ∀ a, timesAt ((h.set root n1).set (root ++ [c]) Node.fresh) a
          = timesAt h a := by
      intro a
      rw [timesAt_set, timesAt_set]
      split_ifs with h1 h2
      · subst h1; simp [timesAt, hfree, Node.fresh]
      · subst h2; simp [timesAt, hn, ht]
      · rfl
    have hcache : ∀ a, cacheAt ((h.set root n1).set (root ++ [c]) Node.fresh) a
          = cacheAt h a := by
      intro a
      rw [cacheAt_set, cacheAt_set]
      split_ifs with h1 h2
      · subst h1; simp [cacheAt, hfree, Node.fresh]
      · subst h2; simp [cacheAt, hn, hm]
      · rfl
    have hletter : ∀ a, letterAt ((h.set root n1).set (root ++ [c]) Node.fresh) a
          = letterAt h a := by
      intro a
      rw [letterAt_set, letterAt_set]
      split_ifs with h1 h2
      · subst h1; simp [letterAt, hfree, Node.fresh]
      · subst h2; simp [letterAt, hn, hl]
      · rfl
    have hslots : ∀ a k, slotAt ((h.set root n1).set (root ++ [c]) Node.fresh) a k
          = if a = root ∧ k = c then some (some (root ++ [c])) else slotAt h a k := by
      intro a k
      rw [slotAt_set, slotAt_set]
      by_cases h1 : a = root ++ [c]
      · have h3 : ¬ (a = root ∧ k = c) := fun hh => hne (hh.1 ▸ h1).symm
        rw [if_pos h1, if_neg h3, h1]
        simp [slotAt, hfree, Node.fresh]
      · rw [if_neg h1]
        by_cases h2 : a = root
        · subst h2
          by_cases h4 : k = c
          · simp [h4, setSlot, hc]
          · simp [h4, setSlot, slotAt, hn, hc]
        · simp [h2]
    refine ⟨rfl, ⟨?_, ?_, ?_, ?_⟩, halloc, htimes, hcache, hletter, hslots⟩
    · rw [halloc]; simp [wf.root]
    · intro a k x hs
      rw [hslots] at hs
      split_ifs at hs with hak
      · have : x = root ++ [c] := by simpa using hs.symm
        subst this
        rw [hak.1, hak.2]
        refine ⟨rfl, ?_⟩
        rw [halloc]; simp
      · have := wf.slot_sound a k x hs
        refine ⟨this.1, ?_⟩
        rw [halloc]; simp [this.2]
    · intro a k hs
      rw [halloc] at hs
      rw [hslots]
      split_ifs with hak
      · rw [hak.1, hak.2]
      · have hs2 : (h (a ++ [k])).isSome := by
          rcases Bool.or_eq_true _ _ ▸ hs with h5 | h5
          · exact h5
          · exfalso
            have h6 : a ++ [k] = root ++ [c] := by simpa using h5
            have := List.append_inj' h6 rfl
            exact hak ⟨this.1, by simpa using this.2⟩
        exact wf.slot_complete a k hs2
    · intro a m hc
      rw [hcache] at hc
      rw [halloc]; simp [wf.cache_alloc a m hc]

theorem UpdatePost.of_set {h : Heap} {root e : Addr} {l : Char} {r : Node}
    (hr : h root = some r) (hb : beats h e (cacheAt h root)) :
    UpdatePost h root e l (h.set root (r.setCache e l)) := by
  refine ⟨?_, ?_, ?_, ?_, ?_⟩
  · intro a
    rw [isSome_set]
    by_cases ha : a = root
    · simp [ha, hr]
    · simp [ha]
  · intro a
    rw [timesAt_set]
    split_ifs with ha
    · rw [ha, timesAt_of_eq hr]; rfl
    · rfl
  · intro a k
    rw [slotAt_set]
    split_ifs with ha
    · rw [ha, slotAt_of_eq hr]; rfl
    · rfl
  · intro a
    rw [cacheAt_set]
    by_cases ha : a = root
    · simp [ha, hb, Node.setCache]
    · simp [ha]
  · intro a
    rw [letterAt_set]
    by_cases ha : a = root
    · simp [ha, hb, Node.setCache]
    · simp [ha]

theorem UpdatePost.of_keep {h : Heap} {root e : Addr} {l : Char}
    (hb : ¬ beats h e (cacheAt h root)) : UpdatePost h root e l h := by
  refine ⟨fun _ => rfl, fun _ => rfl, fun _ _ => rfl, ?_, ?_⟩ <;> intro a <;> simp [hb]

theorem updateMaxChild_spec {h : Heap} {root e : Addr} (l : Char)
    (hroot : (h root).isSome) (he : (h e).isSome)
    (hm : ∀ m, cacheAt h root = some m → (h m).isSome) :
    ∃ h1, updateMaxChild h root e l = some h1 ∧ UpdatePost h root e l h1 := by
  obtain ⟨r, hr⟩ := Option.isSome_iff_exists.mp hroot
  obtain ⟨en, hen⟩ := Option.isSome_iff_exists.mp he
  have hcr : cacheAt h root = r.max_child := cacheAt_of_eq hr
  cases hmc : r.max_child with
  | none =>
    refine ⟨h.set root (r.setCache e l), by simp [updateMaxChild, hr, hmc], ?_⟩
    exact UpdatePost.of_set hr (by rw [hcr, hmc]; trivial)
  | some m =>
    obtain ⟨mn, hmn⟩ := Option.isSome_iff_exists.mp (hm m (by rw [hcr, hmc]))
    have hbeats : beats h e (cacheAt h root) ↔ en.times > mn.times := by
      rw [hcr, hmc]
      simp [beats, timesAt, hen, hmn]
    by_cases hgt : en.times > mn.times
    · refine ⟨h.set root (r.setCache e l), by simp [updateMaxChild, hr, hmc, hen, hmn, hgt], ?_⟩
      exact UpdatePost.of_set hr (hbeats.mpr hgt)
    · refine ⟨h, by simp [updateMaxChild, hr, hmc, hen, hmn, hgt], ?_⟩
      exact UpdatePost.of_keep (fun hb => hgt (hbeats.mp hb))

theorem beats_congr (h1 h2 : Heap) (ht : ∀ a, timesAt h1 a = timesAt h2 a) (e : Addr)
    (o : Option Addr) : beats h1 e o ↔ beats h2 e o := by
  cases o with
  | none => simp [beats]
  | some m => simp [beats, ht]

theorem onPath_self_iff (root a : Addr) : OnPath root root a ↔ a = root := by
  constructor
  · intro ⟨h1, h2⟩
    exact h2.eq_of_length_le h1.length_le
  · intro h; subst h; exact ⟨List.prefix_refl _, List.prefix_refl _⟩

theorem prefix_step {root a : Addr} {c : Char} {rest : List Char} (h1 : root <+: a)
    (h2 : a <+: root ++ c :: rest) : a = root ∨ root ++ [c] <+: a := by
  obtain ⟨s, rfl⟩ := h1
  cases s with
  | nil => left; simp
  | cons c1 s1 =>
    right
    have h3 := (List.prefix_append_right_inj root).mp h2
    have h4 := (List.cons_prefix_cons.mp h3).1
    subst h4
    exact (List.prefix_append_right_inj root).mpr (by simp)

theorem onPath_step (root a : Addr) (c : Char) (rest : List Char) :
    OnPath root (root ++ c :: rest) a ↔
      a = root ∨ OnPath (root ++ [c]) (root ++ c :: rest) a := by
  constructor
  · intro ⟨h1, h2⟩
    rcases prefix_step h1 h2 with h3 | h3
    · exact Or.inl h3
    · exact Or.inr ⟨h3, h2⟩
  · rintro (h | ⟨h1, h2⟩)
    · subst h; exact ⟨List.prefix_refl _, List.prefix_append _ _⟩
    · exact ⟨(List.prefix_append root [c]).trans h1, h2⟩

theorem not_onPath_parent (root : Addr) (c : Char) (e : Addr) : ¬ OnPath (root ++ [c]) e root := by
  intro ⟨h1, _⟩
  have := h1.length_le
  simp at this

theorem pathSlot_step (root a : Addr) (c k : Char) (rest : List Char) :
    (root <+: a ∧ a ++ [k] <+: root ++ c :: rest) ↔
      (a = root ∧ k = c) ∨ (root ++ [c] <+: a ∧ a ++ [k] <+: root ++ c :: rest) := by
  constructor
  · intro ⟨h1, h2⟩
    rcases prefix_step h1 ((List.prefix_append a [k]).trans h2) with h3 | h3
    · subst h3
      have h4 := (List.prefix_append_right_inj a).mp h2
      exact Or.inl ⟨rfl, (List.cons_prefix_cons.mp h4).1⟩
    · exact Or.inr ⟨h3, h2⟩
  · rintro (⟨h1, h2⟩ | ⟨h1, h2⟩)
    · subst h1 h2
      exact ⟨List.prefix_refl _, (List.prefix_append_right_inj a).mpr (by simp)⟩
    · exact ⟨(List.prefix_append root [c]).trans h1, h2⟩

theorem not_pathSlot_self (root a : Addr) (k : Char) : ¬ (root <+: a ∧ a ++ [k] <+: root) := by
  intro ⟨h1, h2⟩
  have := h1.length_le
  have := h2.length_le
  simp at *
  omega

theorem AddWordTo_spec (word : List Char) :
    ∀ (h : Heap) (root e : Addr) (c : Nat), WF h → (h root).isSome → e = root ++ word →
      ∃ h1, AddWordTo h root word c = some (h1, e) ∧ AddPost h root e c h1 := by
  induction word with
  | nil =>
    intro h root e c wf hroot he
    simp only [List.append_nil] at he
    subst he
    obtain ⟨n, hn⟩ := Option.isSome_iff_exists.mp hroot
    obtain ⟨n1, hn1, ht1, hm1, hl1, hc1⟩ : ∃ n1 : Node, n1 = { n with times := (n.times + c) % U64 }
        ∧ n1.times = (n.times + c) % U64 ∧ n1.max_child = n.max_child
        ∧ n1.next_probable_letter = n.next_probable_letter ∧ n1.children = n.children :=
      ⟨_, rfl, rfl, rfl, rfl, rfl⟩
    have hcache1 : ∀ a, cacheAt (h.set e n1) a = cacheAt h a := by
      intro a
      rw [cacheAt_set]
      split_ifs with ha
      · rw [ha, cacheAt_of_eq hn, hm1]
      · rfl
    obtain ⟨h2, hu, up⟩ := @updateMaxChild_spec (h.set e n1) e e '\x00'
      (by simp [Heap.set_same]) (by simp [Heap.set_same])
      (by
        intro m hm
        rw [hcache1] at hm
        rw [isSome_set]
        simp [wf.cache_alloc e m hm])
    refine ⟨h2, by simp [AddWordTo, hn, ← hn1, hu], ?_, ?_, ?_, ?_, ?_⟩
    · intro a
      rw [up.alloc, isSome_set]
      by_cases ha : a = e
      · simp [ha, onPath_self_iff]
      · simp [ha, onPath_self_iff]
    · intro a
      rw [up.times, timesAt_set]
      split_ifs with ha
      · rw [ht1, ha, timesAt_of_eq hn]
      · rfl
    · intro a k
      rw [up.slot, slotAt_set, if_neg (not_pathSlot_self e a k)]
      split_ifs with ha
      · rw [hc1, ha, slotAt_of_eq hn]
      · rfl
    · intro a
      have hb := beats_congr h2 (h.set e n1) up.times e (cacheAt h a)
      rw [up.cache, hcache1, hcache1]
      simp only [onPath_self_iff, hb]
      by_cases ha : a = e
      · subst ha; rfl
      · simp [ha]
    · intro a
      have hb := beats_congr h2 (h.set e n1) up.times e (cacheAt h a)
      rw [up.letter, hcache1, letterAt_set]
      simp only [onPath_self_iff, hb]
      by_cases ha : a = e
      · subst ha; simp [hl1, letterAt_of_eq hn]
      · simp [ha]
  | cons ch rest ih =>
    intro h root e c wf hroot he
    obtain ⟨n, hn⟩ := Option.isSome_iff_exists.mp hroot
    obtain ⟨hnext, op⟩ := openSlot_spec wf hn ch
    have he1 : e = (root ++ [ch]) ++ rest := by rw [he]; simp
    obtain ⟨h2, hrec, ap⟩ := ih (openSlot h root n ch).1 (root ++ [ch]) e c op.wf
      (by rw [op.alloc]; simp) he1
    have hnp : ¬ OnPath (root ++ [ch]) e root := not_onPath_parent root ch e
    have hroot2 : (h2 root).isSome := by
      rw [ap.alloc, op.alloc]; simp [hroot]
    have hc2 : cacheAt h2 root = cacheAt h root := by
      rw [ap.cache, op.cache]; simp [hnp]
    obtain ⟨h3, hu, up⟩ := @updateMaxChild_spec h2 root e ch hroot2
      (by rw [ap.alloc]; simp [OnPath, he1])
      (by
        intro m hm
        rw [hc2] at hm
        rw [ap.alloc, op.alloc]
        simp [wf.cache_alloc root m hm])
    have hbeats : ∀ o, beats h2 e o ↔ beats h3 e o := fun o =>
      (beats_congr h3 h2 up.times e o).symm
    refine ⟨h3, ?_, ?_, ?_, ?_, ?_, ?_⟩
    · simp only [AddWordTo, hn]
      rw [hnext, hrec]
      simp [hu]
    · intro a
      rw [up.alloc, ap.alloc, op.alloc]
      subst he
      simp only [onPath_step root a ch rest]
      by_cases h1 : a = root
      · simp [h1, hroot]
      · by_cases h2 : a = root ++ [ch]
        · simp [h2, OnPath]
        · simp [h1, h2]
    · intro a
      rw [up.times, ap.times, op.times]
    · intro a k
      rw [up.slot, ap.slot, op.slot]
      subst he
      simp only [pathSlot_step root a ch k rest]
      by_cases h1 : root ++ [ch] <+: a ∧ a ++ [k] <+: root ++ ch :: rest
      · simp [h1]
      · by_cases h2 : a = root ∧ k = ch
        · simp [h1, h2]
        · simp [h1, h2]
    · intro a
      rw [up.cache, hc2, ap.cache, op.cache]
      subst he
      simp only [onPath_step root a ch rest, hbeats]
      by_cases h1 : a = root
      · subst h1
        by_cases h2 : beats h3 (a ++ ch :: rest) (cacheAt h a)
        · simp [h2]
        · simp [h2, hnp]
      · simp [h1]
    · intro a
      rw [up.letter, hc2, ap.letter, op.cache, op.letter]
      subst he
      simp only [onPath_step root a ch rest, hbeats]
      by_cases h1 : a = root
      · subst h1
        by_cases h2 : beats h3 (a ++ ch :: rest) (cacheAt h a)
        · simp [h2]
        · simp [h2, hnp]
      · simp [h1]

theorem AddPost.keeps_wf {h h1 : Heap} {root e : Addr} {c : Nat} (ap : AddPost h root e c h1)
    (wf : WF h) (hroot : (h root).isSome) (hre : root <+: e) : WF h1 := by
  have hmono : ∀ a, (h a).isSome → (h1 a).isSome := by
    intro a ha; rw [ap.alloc]; simp [ha]
  refine ⟨hmono _ wf.root, ?_, ?_, ?_⟩
  · intro a k x hs
    rw [ap.slot] at hs
    split_ifs at hs with hp
    · have hx : x = a ++ [k] := by simpa using hs.symm
      subst hx
      refine ⟨rfl, ?_⟩
      rw [ap.alloc]
      have : OnPath root e (a ++ [k]) := ⟨hp.1.trans (List.prefix_append a [k]), hp.2⟩
      simp [this]
    · have := wf.slot_sound a k x hs
      exact ⟨this.1, hmono _ this.2⟩
  · intro a k hs
    rw [ap.slot]
    split_ifs with hp
    · rfl
    · apply wf.slot_complete
      rw [ap.alloc] at hs
      rcases Bool.or_eq_true _ _ ▸ hs with h5 | h5
      · exact h5
      · have h6 : OnPath root e (a ++ [k]) := by simpa using h5
        rcases List.prefix_concat_iff.mp h6.1 with h7 | h7
        · rw [← h7]; exact hroot
        · exact absurd ⟨h7, h6.2⟩ hp
  · intro a m hc
    rw [ap.cache] at hc
    split_ifs at hc with hp
    · have hm : m = e := by simpa using hc.symm
      subst hm
      rw [ap.alloc]
      have : OnPath root m m := ⟨hre, List.prefix_refl _⟩
      simp [this]
    · exact hmono _ (wf.cache_alloc a m hc)

theorem pathLetter_end (e : Addr) : (e.drop e.length).headD '\x00' = '\x00' := by
  simp

theorem pathLetter_le {a e : Addr} (h1 : a <+: e) (h2 : a ≠ e) :
    a ++ [(e.drop a.length).headD '\x00'] <+: e := by
  obtain ⟨s, rfl⟩ := h1
  cases s with
  | nil => simp at h2
  | cons k s1 =>
    simp only [List.drop_left, List.headD_cons]
    exact (List.prefix_append_right_inj a).mpr (by simp)

/-! ## The cache invariant -/

theorem timesAt_of_none {h : Heap} {a : Addr} (ha : h a = none) : timesAt h a = 0 := by
  simp [timesAt, ha]

theorem cacheAt_of_none {h : Heap} {a : Addr} (ha : h a = none) : cacheAt h a = none := by
  simp [cacheAt, ha]

/-- In a good heap, a node without a cache has nothing at or below it but a
zero count. -/
theorem Good.times_below_null {h : Heap} (g : Good h) {a d : Addr} (hc : cacheAt h a = none)
    (had : a <+: d) : timesAt h d = 0 := by
  cases hd : h d with
  | none => exact timesAt_of_none hd
  | some nd =>
    have hd1 : (h d).isSome := by simp [hd]
    have ha1 := g.wf.prefix_closed d a had hd1
    obtain ⟨_, h0, hall⟩ := g.pristine a ha1 hc
    rw [hall d hd1]; exact h0

theorem Good.cache_below_null {h : Heap} (g : Good h) {a d : Addr} (hc : cacheAt h a = none)
    (had : a <+: d) (hne : d ≠ a) : cacheAt h d = none := by
  cases hd : h d with
  | none => exact cacheAt_of_none hd
  | some nd =>
    have hd1 : (h d).isSome := by simp [hd]
    have ha1 := g.wf.prefix_closed d a had hd1
    obtain ⟨ha, _, hall⟩ := g.pristine a ha1 hc
    exact absurd ((hall d hd1).trans ha.symm) hne

theorem beats_some (h : Heap) (e m : Addr) :
    beats h e (some m) ↔ timesAt h m < timesAt h e := Iff.rfl

theorem beats_none (h : Heap) (e : Addr) : beats h e none := trivial

/-- One `AddWord` that does not overflow keeps the cache invariant, and leaves
no node without a cache. -/
theorem Good.addWord {h h1 : Heap} {e : Addr} {c : Nat} (g : Good h)
    (ap : AddPost h root_ e c h1) (hno : timesAt h e + c < U64) :
    Good h1 ∧ ∀ a, (h1 a).isSome → cacheAt h1 a ≠ none := by
  have onp : ∀ a, OnPath root_ e a ↔ a <+: e := by intro a; simp [OnPath, root_]
  have hTe : timesAt h1 e = timesAt h e + c := by
    rw [ap.times]; simp [Nat.mod_eq_of_lt hno]
  have hT : ∀ a, a ≠ e → timesAt h1 a = timesAt h a := by
    intro a ha; rw [ap.times]; simp [ha]
  have hmono : ∀ a, timesAt h a ≤ timesAt h1 a := by
    intro a
    by_cases ha : a = e
    · subst ha; omega
    · rw [hT a ha]
  have hoff : ∀ a, ¬ a <+: e → cacheAt h1 a = cacheAt h a ∧ letterAt h1 a = letterAt h a := by
    intro a ha
    rw [ap.cache, ap.letter]; simp [onp, ha]
  have hnew : ∀ a, a <+: e → beats h1 e (cacheAt h a) →
      cacheAt h1 a = some e ∧ letterAt h1 a = (e.drop a.length).headD '\x00' := by
    intro a ha hb
    rw [ap.cache, ap.letter]; simp [onp, ha, hb]
  have hkeep : ∀ a, a <+: e → ¬ beats h1 e (cacheAt h a) →
      cacheAt h1 a = cacheAt h a ∧ letterAt h1 a = letterAt h a := by
    intro a ha hb
    rw [ap.cache, ap.letter]; simp [hb]
  have wf1 : WF h1 := ap.keeps_wf g.wf g.wf.root (by simp [root_])
  have hnonull : ∀ a, (h1 a).isSome → cacheAt h1 a ≠ none := by
    intro a ha
    by_cases hp : a <+: e
    · by_cases hb : beats h1 e (cacheAt h a)
      · rw [(hnew a hp hb).1]; simp
      · rw [(hkeep a hp hb).1]
        intro hc
        rw [hc] at hb
        exact hb (beats_none h1 e)
    · rw [(hoff a hp).1]
      intro hc
      have ha0 : (h a).isSome := by
        rw [ap.alloc] at ha
        simpa [onp, hp] using ha
      exact hp ((g.pristine a ha0 hc).1 ▸ (by simp [root_]))
  refine ⟨⟨wf1, ?_, ?_, ?_⟩, hnonull⟩
  · intro a ha hc
    exact absurd hc (hnonull a ha)
  · intro a m hc
    by_cases hp : a <+: e
    · by_cases hb : beats h1 e (cacheAt h a)
      · -- the cache of `a` is replaced by the end node
        have hm : m = e := by
          have := (hnew a hp hb).1; rw [this] at hc; simpa using hc.symm
        subst hm
        refine ⟨hp, ?_, ?_⟩
        · intro hma
          rw [(hnew a hp hb).2, ← hma]; simp
        · intro hma
          rw [(hnew a hp hb).2]
          have hx := pathLetter_le hp (Ne.symm hma)
          have hax : a <+: a ++ [(m.drop a.length).headD '\x00'] := List.prefix_append _ _
          by_cases hbx : beats h1 m (cacheAt h (a ++ [(m.drop a.length).headD '\x00']))
          · exact (hnew _ hx hbx).1
          · rw [(hkeep _ hx hbx).1]
            cases hcx : cacheAt h (a ++ [(m.drop a.length).headD '\x00']) with
            | none => rw [hcx] at hbx; exact absurd (beats_none h1 m) hbx
            | some m1 =>
              rw [hcx, beats_some] at hbx
              by_contra hne
              have hne1 : m1 ≠ m := fun hh => hne (by rw [hh])
              cases hca : cacheAt h a with
              | none =>
                have := g.cache_below_null hca hax (append_singleton_ne _ _)
                rw [this] at hcx; simp at hcx
              | some m0 =>
                rw [hca, beats_some] at hb
                have h1x := (g.chain _ m1 hcx).1
                have h2 := g.max a m0 m1 hca (hax.trans h1x)
                have h3 := hmono m0
                have h4 := hT m1 hne1
                omega
      · -- the cache of `a` is kept
        rw [(hkeep a hp hb).1] at hc
        rw [(hkeep a hp hb).2]
        obtain ⟨c1, c2, c3⟩ := g.chain a m hc
        refine ⟨c1, c2, ?_⟩
        intro hma
        have hcx := c3 hma
        rw [ap.cache, hcx]
        rw [hc] at hb
        simp [hb]
    · rw [(hoff a hp).1] at hc
      rw [(hoff a hp).2]
      obtain ⟨c1, c2, c3⟩ := g.chain a m hc
      refine ⟨c1, c2, ?_⟩
      intro hma
      have hpx : ¬ a ++ [letterAt h a] <+: e := fun hh => hp ((List.prefix_append _ _).trans hh)
      rw [(hoff _ hpx).1]
      exact c3 hma
  · intro a m d hc had
    by_cases hde : d = e
    · subst hde
      by_cases hb : beats h1 d (cacheAt h a)
      · have := (hnew a had hb).1; rw [this] at hc
        have hm : m = d := by simpa using hc.symm
        rw [hm]
      · rw [(hkeep a had hb).1] at hc
        rw [hc, beats_some] at hb
        omega
    · rw [hT d hde]
      by_cases hp : a <+: e
      · by_cases hb : beats h1 e (cacheAt h a)
        · have := (hnew a hp hb).1; rw [this] at hc
          have hm : m = e := by simpa using hc.symm
          subst hm
          cases hca : cacheAt h a with
          | none => rw [g.times_below_null hca had]; exact Nat.zero_le _
          | some m0 =>
            rw [hca, beats_some] at hb
            have h2 := g.max a m0 d hca had
            have h3 := hmono m0
            omega
        · rw [(hkeep a hp hb).1] at hc
          have h2 := g.max a m d hc had
          have h3 := hmono m
          omega
      · rw [(hoff a hp).1] at hc
        have h2 := g.max a m d hc had
        have h3 := hmono m
        omega

/-! ## Sequences of `AddWord` calls -/

theorem AddWord_spec {t : Trie} (wf : WF t.heap) (w : List Char) (c : Nat) :
    ∃ t1, AddWord t w c = some t1 ∧ AddPost t.heap root_ w c t1.heap ∧
      t1.last_node_ = t.last_node_ ∧ t1.last_word = t.last_word := by
  obtain ⟨h1, hadd, ap⟩ := AddWordTo_spec w t.heap root_ w c wf wf.root (by simp [root_])
  exact ⟨{ t with heap := h1 }, by simp [AddWord, hadd], ap, rfl, rfl⟩

theorem onPath_root (e a : Addr) : OnPath root_ e a ↔ a <+: e := by
  simp [OnPath, root_]

/-- A sequence of `AddWord` calls always runs to completion; it adds the
counts modulo `2 ^ 64` and creates the nodes of the prefixes of its words. -/
theorem addWords_spec (ops : List (List Char × Nat)) :
    ∀ t : Trie, WF t.heap → (∀ a, timesAt t.heap a < U64) →
      ∃ t1, addWords t ops = some t1 ∧ WF t1.heap ∧
        (∀ a, timesAt t1.heap a = (timesAt t.heap a + countOf ops a) % U64) ∧
        (∀ a, (t1.heap a).isSome ↔ ((t.heap a).isSome ∨ ∃ o ∈ ops, a <+: o.1)) ∧
        t1.last_node_ = t.last_node_ ∧ t1.last_word = t.last_word := by
  induction ops with
  | nil =>
    intro t wf hb
    refine ⟨t, rfl, wf, ?_, ?_, rfl, rfl⟩
    · intro a; simp [countOf, Nat.mod_eq_of_lt (hb a)]
    · intro a; simp
  | cons o ops ih =>
    intro t wf hb
    obtain ⟨w, c⟩ := o
    obtain ⟨t1, h1, ap, hl1, hw1⟩ := AddWord_spec wf w c
    have wf1 : WF t1.heap := ap.keeps_wf wf wf.root (by simp [root_])
    have hb1 : ∀ a, timesAt t1.heap a < U64 := by
      intro a
      rw [ap.times]
      split_ifs
      · exact Nat.mod_lt _ (by simp [U64])
      · exact hb a
    obtain ⟨t2, h2, wf2, ht2, ha2, hl2, hw2⟩ := ih t1 wf1 hb1
    refine ⟨t2, by simp [addWords, h1, h2], wf2, ?_, ?_, hl2.trans hl1, hw2.trans hw1⟩
    · intro a
      rw [ht2, ap.times]
      by_cases ha : a = w
      · subst ha
        simp only [countOf, if_true]
        rw [Nat.add_mod, Nat.mod_mod, ← Nat.add_mod, Nat.add_assoc]
      · have ha1 : ¬ w = a := fun hh => ha hh.symm
        simp [countOf, ha, ha1]
    · intro a
      rw [ha2, ap.alloc a]
      simp only [Bool.or_eq_true, decide_eq_true_eq, onPath_root, List.mem_cons,
        exists_eq_or_imp]
      tauto

/-- A sequence of `AddWord` calls whose totals stay below `2 ^ 64` keeps the
cache invariant. -/
theorem addWords_good (ops : List (List Char × Nat)) :
    ∀ t t1 : Trie, Good t.heap → (∀ a, timesAt t.heap a + countOf ops a < U64) →
      addWords t ops = some t1 →
      Good t1.heap ∧ (ops ≠ [] → ∀ a, (t1.heap a).isSome → cacheAt t1.heap a ≠ none) := by
  induction ops with
  | nil =>
    intro t t1 g _ h1
    simp only [addWords, Option.some.injEq] at h1
    subst h1
    exact ⟨g, fun hh => absurd rfl hh⟩
  | cons o ops ih =>
    intro t t2 g hb h2
    obtain ⟨w, c⟩ := o
    obtain ⟨t1, h1, ap, _, _⟩ := AddWord_spec g.wf w c
    simp only [addWords, h1] at h2
    have hbw : timesAt t.heap w + c < U64 := by
      have := hb w
      simp only [countOf, if_true] at this
      omega
    obtain ⟨g1, hn1⟩ := g.addWord ap hbw
    have hb1 : ∀ a, timesAt t1.heap a + countOf ops a < U64 := by
      intro a
      have := hb a
      rw [ap.times]
      by_cases ha : a = w
      · subst ha
        simp only [countOf, if_true] at this
        simp only [if_true]
        rw [Nat.mod_eq_of_lt hbw]; omega
      · have ha1 : ¬ w = a := fun hh => ha hh.symm
        simp only [countOf, ha1, if_false] at this
        simp only [ha, if_false]; omega
    obtain ⟨g2, hn2⟩ := ih t1 t2 g1 hb1 h2
    refine ⟨g2, fun _ => ?_⟩
    cases ops with
    | nil =>
      simp only [addWords, Option.some.injEq] at h2
      subst h2; exact hn1
    | cons o1 ops1 => exact hn2 (by simp)

theorem empty_heap_root : Trie.empty.heap root_ = some Node.fresh := by
  simp [Trie.empty]

theorem empty_heap_other {a : Addr} (ha : a ≠ root_) : Trie.empty.heap a = none := by
  simp [Trie.empty, ha]

theorem empty_isSome (a : Addr) : (Trie.empty.heap a).isSome ↔ a = root_ := by
  by_cases ha : a = root_
  · simp [ha, empty_heap_root]
  · simp [ha, empty_heap_other ha]

theorem empty_timesAt (a : Addr) : timesAt Trie.empty.heap a = 0 := by
  by_cases ha : a = root_
  · simp [timesAt, ha, empty_heap_root, Node.fresh]
  · simp [timesAt, empty_heap_other ha]

theorem empty_cacheAt (a : Addr) : cacheAt Trie.empty.heap a = none := by
  by_cases ha : a = root_
  · simp [cacheAt, ha, empty_heap_root, Node.fresh]
  · simp [cacheAt, empty_heap_other ha]

theorem empty_slotAt (a : Addr) (k : Char) : slotAt Trie.empty.heap a k = none := by
  by_cases ha : a = root_
  · simp [slotAt, ha, empty_heap_root, Node.fresh]
  · simp [slotAt, empty_heap_other ha]

theorem empty_wf : WF Trie.empty.heap := by
  refine ⟨(empty_isSome _).mpr rfl, ?_, ?_, ?_⟩
  · intro a k x hs; rw [empty_slotAt] at hs; simp at hs
  · intro a k hs
    have := (empty_isSome _).mp hs
    simp [root_] at this
  · intro a m hc; rw [empty_cacheAt] at hc; simp at hc

theorem empty_good : Good Trie.empty.heap := by
  refine ⟨empty_wf, ?_, ?_, ?_⟩
  · intro a ha _
    exact ⟨(empty_isSome a).mp ha, empty_timesAt _, fun d hd => (empty_isSome d).mp hd⟩
  · intro a m hc; rw [empty_cacheAt] at hc; simp at hc
  · intro a m d hc; rw [empty_cacheAt] at hc; simp at hc

/-- Building a trie never fails: the node of a word holds the sum of its
counts modulo `2 ^ 64`, and the nodes are the root and the prefixes of the
inserted words. -/
theorem build_spec (ops : List (List Char × Nat)) :
    ∃ t, build ops = some t ∧ WF t.heap ∧
      (∀ a, timesAt t.heap a = countOf ops a % U64) ∧
      (∀ a, (t.heap a).isSome ↔ (a = root_ ∨ ∃ o ∈ ops, a <+: o.1)) ∧
      t.last_node_ = none ∧ t.last_word = [] := by
  obtain ⟨t, h1, wf, ht, ha, hl, hw⟩ := addWords_spec ops Trie.empty empty_wf
    (fun a => by rw [empty_timesAt]; simp [U64])
  refine ⟨t, h1, wf, ?_, ?_, hl, hw⟩
  · intro a; rw [ht, empty_timesAt]; simp
  · intro a; rw [ha, empty_isSome]

theorem build_good {ops : List (List Char × Nat)} (hno : NoOverflow ops) {t : Trie}
    (hb : build ops = some t) :
    Good t.heap ∧ (ops ≠ [] → ∀ a, (t.heap a).isSome → cacheAt t.heap a ≠ none) :=
  addWords_good ops Trie.empty t empty_good
    (fun a => by rw [empty_timesAt]; simpa using hno a) hb

theorem build_times_exact {ops : List (List Char × Nat)} (hno : NoOverflow ops) {t : Trie}
    (hb : build ops = some t) (a : Addr) : timesAt t.heap a = countOf ops a := by
  obtain ⟨t1, h1, _, ht, _⟩ := build_spec ops
  rw [hb] at h1
  have : t = t1 := by simpa using h1
  subst this
  rw [ht, Nat.mod_eq_of_lt (hno a)]

theorem countOf_pos_of_mem {ops : List (List Char × Nat)} (hp : PositiveCounts ops)
    {w : List Char} (hw : Inserted ops w) : 0 < countOf ops w := by
  induction ops with
  | nil => obtain ⟨o, ho, _⟩ := hw; simp at ho
  | cons o ops ih =>
    obtain ⟨w1, c⟩ := o
    obtain ⟨o1, ho1, hw1⟩ := hw
    simp only [countOf]
    by_cases h : w1 = w
    · have := hp (w1, c) (by simp)
      simp only [h, if_true]
      simp at this; omega
    · have hmem : o1 ∈ ops := by
        rcases List.mem_cons.mp ho1 with h2 | h2
        · subst h2; exact absurd hw1 h
        · exact h2
      have := ih (fun o ho => hp o (List.mem_cons_of_mem _ ho)) ⟨o1, hmem, hw1⟩
      omega

theorem inserted_of_countOf_pos {ops : List (List Char × Nat)} {w : List Char}
    (h : 0 < countOf ops w) : Inserted ops w := by
  induction ops with
  | nil => simp [countOf] at h
  | cons o ops ih =>
    obtain ⟨w1, c⟩ := o
    simp only [countOf] at h
    by_cases h1 : w1 = w
    · exact ⟨(w1, c), by simp, h1⟩
    · simp only [h1, if_false, Nat.zero_add] at h
      obtain ⟨o1, ho1, hw1⟩ := ih h
      exact ⟨o1, List.mem_cons_of_mem _ ho1, hw1⟩

/-! ## Queries -/

theorem NullsAdded.refl (h : Heap) : NullsAdded h h :=
  ⟨fun _ => rfl, fun _ => rfl, fun _ => rfl, fun _ => rfl, fun _ _ _ => Iff.rfl⟩

theorem NullsAdded.trans {h h1 h2 : Heap} (n1 : NullsAdded h h1) (n2 : NullsAdded h1 h2) :
    NullsAdded h h2 :=
  ⟨fun a => (n2.alloc a).trans (n1.alloc a), fun a => (n2.times a).trans (n1.times a),
    fun a => (n2.cache a).trans (n1.cache a), fun a => (n2.letter a).trans (n1.letter a),
    fun a k x => (n2.slot a k x).trans (n1.slot a k x)⟩

theorem NullsAdded.still_wf {h h1 : Heap} (na : NullsAdded h h1) (wf : WF h) : WF h1 := by
  refine ⟨by rw [na.alloc]; exact wf.root, ?_, ?_, ?_⟩
  · intro a k x hs
    have := wf.slot_sound a k x ((na.slot a k x).mp hs)
    exact ⟨this.1, by rw [na.alloc]; exact this.2⟩
  · intro a k hs
    rw [na.alloc] at hs
    exact (na.slot a k _).mpr (wf.slot_complete a k hs)
  · intro a m hc
    rw [na.cache] at hc
    rw [na.alloc]; exact wf.cache_alloc a m hc

theorem NullsAdded.still_good {h h1 : Heap} (na : NullsAdded h h1) (g : Good h) : Good h1 := by
  refine ⟨na.still_wf g.wf, ?_, ?_, ?_⟩
  · intro a ha hc
    rw [na.alloc] at ha
    rw [na.cache] at hc
    obtain ⟨p1, p2, p3⟩ := g.pristine a ha hc
    exact ⟨p1, by rw [na.times]; exact p2, fun d hd => p3 d (by rw [← na.alloc]; exact hd)⟩
  · intro a m hc
    rw [na.cache] at hc
    rw [na.letter, na.cache]
    exact g.chain a m hc
  · intro a m d hc had
    rw [na.cache] at hc
    rw [na.times, na.times]
    exact g.max a m d hc had

theorem FindLoop_spec (word : List Char) :
    ∀ (h : Heap) (cur : Addr), WF h → (h cur).isSome →
      ∃ h1 a, FindLoop h cur word = some (h1, a) ∧ NullsAdded h h1 ∧ (h a).isSome ∧
        cur <+: a ∧ a <+: cur ++ word ∧
        ((h (cur ++ word)).isSome → a = cur ++ word ∧ h1 = h) := by
  induction word with
  | nil =>
    intro h cur _ hcur
    exact ⟨h, cur, rfl, NullsAdded.refl h, hcur, List.prefix_refl _, by simp, fun _ => by simp⟩
  | cons c cs ih =>
    intro h cur wf hcur
    obtain ⟨n, hn⟩ := Option.isSome_iff_exists.mp hcur
    have hslot : slotAt h cur c = n.children c := slotAt_of_eq hn c
    have hmiss : (∀ x, n.children c ≠ some (some x)) → ¬ (h (cur ++ c :: cs)).isSome := by
      intro hx hfull
      have h1 : (h (cur ++ [c])).isSome :=
        wf.prefix_closed _ _ ((List.prefix_append_right_inj cur).mpr (by simp)) hfull
      have := wf.slot_complete cur c h1
      rw [hslot] at this
      exact hx _ this
    cases hc : n.children c with
    | none =>
      obtain ⟨n1, hn1, ht, hm, hl, hch⟩ : ∃ n1 : Node,
          n1 = { n with children := setSlot n.children c none } ∧ n1.times = n.times ∧
          n1.max_child = n.max_child ∧ n1.next_probable_letter = n.next_probable_letter ∧
          n1.children = setSlot n.children c none := ⟨_, rfl, rfl, rfl, rfl, rfl⟩
      refine ⟨h.set cur n1, cur, by simp [FindLoop, hn, hc, hn1], ?_, hcur, List.prefix_refl _,
        List.prefix_append _ _, fun hfull => absurd hfull (hmiss (by simp [hc]))⟩
      refine ⟨?_, ?_, ?_, ?_, ?_⟩
      · intro a
        rw [isSome_set]
        by_cases ha : a = cur
        · simp [ha, hn]
        · simp [ha]
      · intro a
        rw [timesAt_set]
        split_ifs with ha
        · rw [ha, timesAt_of_eq hn, ht]
        · rfl
      · intro a
        rw [cacheAt_set]
        split_ifs with ha
        · rw [ha, cacheAt_of_eq hn, hm]
        · rfl
      · intro a
        rw [letterAt_set]
        split_ifs with ha
        · rw [ha, letterAt_of_eq hn, hl]
        · rfl
      · intro a k x
        rw [slotAt_set]
        split_ifs with ha
        · subst ha
          rw [slotAt_of_eq hn, hch]
          by_cases hk : k = c
          · subst hk; simp [setSlot, hc]
          · simp [setSlot, hk]
        · rfl
    | some v =>
      cases v with
      | none =>
        exact ⟨h, cur, by simp [FindLoop, hn, hc], NullsAdded.refl h, hcur, List.prefix_refl _,
          List.prefix_append _ _, fun hfull => absurd hfull (hmiss (by simp [hc]))⟩
      | some next =>
        obtain ⟨hnext, hnalloc⟩ := wf.slot_sound cur c next (by rw [hslot, hc])
        subst hnext
        obtain ⟨h1, a, hf, na, ha, hp1, hp2, hfull⟩ := ih h (cur ++ [c]) wf hnalloc
        have e1 : cur ++ [c] ++ cs = cur ++ c :: cs := by simp
        rw [e1] at hp2 hfull
        exact ⟨h1, a, by simp [FindLoop, hn, hc, hf], na, ha,
          (List.prefix_append _ _).trans hp1, hp2, hfull⟩

theorem loop_done (h : Heap) (target : Addr) (fuel : Nat) (result : List Char) :
    FindContinuationLoop h target fuel target result = Except.ok (target, result) := by
  cases fuel <;> simp [FindContinuationLoop]

theorem loop_step {h : Heap} {target last : Addr} (fuel : Nat) (result : List Char)
    (hne : last ≠ target) {x : Addr}
    (hs : slotAt h last (letterAt h last) = some (some x)) :
    FindContinuationLoop h target (fuel + 1) last result =
      FindContinuationLoop h target fuel x (result ++ [letterAt h last]) := by
  obtain ⟨n, hn⟩ := Option.isSome_iff_exists.mp (isSome_of_slotAt hs)
  rw [letterAt_of_eq hn, slotAt_of_eq hn] at hs
  rw [letterAt_of_eq hn]
  conv_lhs => unfold FindContinuationLoop
  simp [hne, hn, hs]

/-- Once the loop has returned or has dereferenced null, more fuel does not
change the outcome. -/
theorem loop_mono (h : Heap) (target : Addr) (k : Nat) :
    ∀ (fuel : Nat) (last : Addr) (result : List Char),
      FindContinuationLoop h target fuel last result ≠ Except.error Fault.outOfFuel →
      FindContinuationLoop h target (fuel + k) last result =
        FindContinuationLoop h target fuel last result := by
  intro fuel
  induction fuel with
  | zero =>
    intro last result hr
    by_cases hl : last = target
    · subst hl; rw [loop_done, loop_done]
    · simp [FindContinuationLoop, hl] at hr
  | succ fuel ih =>
    intro last result hr
    by_cases hl : last = target
    · subst hl; rw [loop_done, loop_done]
    · have e : fuel + 1 + k = (fuel + k) + 1 := by omega
      rw [e]
      unfold FindContinuationLoop at hr ⊢
      simp only [hl, if_false] at hr ⊢
      cases hn : h last with
      | none => rfl
      | some n =>
        simp only [hn] at hr ⊢
        cases hs : n.children n.next_probable_letter with
        | none => rfl
        | some v =>
          cases v with
          | none => rfl
          | some x =>
            simp only [hs] at hr ⊢
            exact ih _ _ hr

/-- In a good heap the loop reaches the cached node and spells the way to it. -/
theorem loop_good {h : Heap} (g : Good h) {m : Addr} :
    ∀ (fuel : Nat) (a : Addr) (result : List Char), cacheAt h a = some m →
      m.length - a.length ≤ fuel →
      FindContinuationLoop h m fuel a result = Except.ok (m, result ++ m.drop a.length) := by
  intro fuel
  induction fuel with
  | zero =>
    intro a result hc hf
    have hp := (g.chain a m hc).1
    have : a = m := hp.eq_of_length_le (by omega)
    subst this
    rw [loop_done]; simp
  | succ fuel ih =>
    intro a result hc hf
    obtain ⟨hp, _, hch⟩ := g.chain a m hc
    by_cases ham : a = m
    · subst ham; rw [loop_done]; simp
    · have hcx := hch (Ne.symm ham)
      have hx := g.wf.slot_complete a (letterAt h a) (isSome_of_cacheAt hcx)
      rw [loop_step fuel result ham hx]
      have hpx := (g.chain _ m hcx).1
      rw [ih _ _ hcx (by simp; omega)]
      obtain ⟨s, rfl⟩ := hpx
      simp

theorem FindContinuation_null {t : Trie} (hl : t.last_node_ = none) (fuel : Nat) :
    FindContinuation fuel t = Except.ok (t.last_word, t) := by
  simp [FindContinuation, hl]

theorem FindContinuation_pristine {t : Trie} {ln : Addr} (hl : t.last_node_ = some ln)
    (ha : (t.heap ln).isSome) (hc : cacheAt t.heap ln = none) (fuel : Nat) :
    FindContinuation fuel t = Except.ok (t.last_word, t) := by
  obtain ⟨n, hn⟩ := Option.isSome_iff_exists.mp ha
  rw [cacheAt_of_eq hn] at hc
  simp [FindContinuation, hl, hn, hc]

theorem FindContinuation_good {t : Trie} (g : Good t.heap) {ln m : Addr}
    (hl : t.last_node_ = some ln) (hc : cacheAt t.heap ln = some m) (fuel : Nat)
    (hf : m.length - ln.length ≤ fuel) :
    FindContinuation fuel t =
      Except.ok (t.last_word ++ m.drop ln.length, { t with last_node_ := some m }) := by
  obtain ⟨n, hn⟩ := Option.isSome_iff_exists.mp (isSome_of_cacheAt hc)
  have hloop := loop_good g fuel ln t.last_word hc hf
  rw [cacheAt_of_eq hn] at hc
  simp [FindContinuation, hl, hn, hc, hloop]

theorem FindContinuation_mono {t : Trie} {fuel : Nat}
    (h : FindContinuation fuel t ≠ Except.error Fault.outOfFuel) (k : Nat) :
    FindContinuation (fuel + k) t = FindContinuation fuel t := by
  unfold FindContinuation at h ⊢
  cases hl : t.last_node_ with
  | none => rfl
  | some ln =>
    simp only [hl] at h ⊢
    cases hn : t.heap ln with
    | none => rfl
    | some n =>
      simp only [hn] at h ⊢
      cases hm : n.max_child with
      | none => rfl
      | some target =>
        simp only [hm] at h ⊢
        rw [loop_mono _ _ k]
        intro hloop
        rw [hloop] at h
        exact h rfl

theorem Request_mono {t : Trie} {p : List Char} {fuel : Nat}
    (h : Request fuel t p ≠ Except.error Fault.outOfFuel) (k : Nat) :
    Request (fuel + k) t p = Request fuel t p := by
  unfold Request at h ⊢
  cases hf : Find t.heap (some root_) p with
  | none => rfl
  | some x =>
    simp only [hf] at h ⊢
    exact FindContinuation_mono h k

theorem Append_mono {t : Trie} {s : List Char} {fuel : Nat}
    (h : Append fuel t s ≠ Except.error Fault.outOfFuel) (k : Nat) :
    Append (fuel + k) t s = Append fuel t s := by
  unfold Append at h ⊢
  cases hf : Find t.heap t.last_node_ s with
  | none => rfl
  | some x =>
    simp only [hf] at h ⊢
    exact FindContinuation_mono h k

theorem Find_root_hit {h : Heap} (wf : WF h) {p : List Char} (hp : (h p).isSome) :
    Find h (some root_) p = some (h, some p) := by
  obtain ⟨h1, a, hf, _, _, _, _, hfull⟩ := FindLoop_spec p h root_ wf wf.root
  obtain ⟨ha, hh⟩ := hfull (by simpa [root_] using hp)
  subst hh
  simp only [root_, List.nil_append] at ha
  subst ha
  simp [Find, hf]

/-- `Request(p)` on a good heap, when the node of `p` exists and caches `m`:
the call returns `m`, for every fuel that covers the way from `p` to `m`. -/
theorem Request_hit {t : Trie} (g : Good t.heap) {p m : List Char}
    (hc : cacheAt t.heap p = some m) (fuel : Nat) (hf : m.length - p.length ≤ fuel) :
    Request fuel t p =
      Except.ok (m, { heap := t.heap, last_node_ := some m, last_word := p }) := by
  have hfind := Find_root_hit g.wf (isSome_of_cacheAt hc)
  have hp := (g.chain p m hc).1
  unfold Request
  rw [hfind]
  simp only
  rw [FindContinuation_good (t := { heap := t.heap, last_node_ := some p, last_word := p })
    g rfl hc fuel hf]
  obtain ⟨s, rfl⟩ := hp
  simp

/-! ## Descendants, by pointers -/

theorem Descendant.extends {h : Heap} (wf : WF h) {a d : Addr} (hd : Descendant h a d) :
    a <+: d := by
  induction hd with
  | self a => exact List.prefix_refl _
  | child k hs _ ih =>
    obtain ⟨hx, _⟩ := wf.slot_sound _ k _ hs
    subst hx
    exact (List.prefix_append _ _).trans ih

theorem Descendant.of_extends {h : Heap} (wf : WF h) (s : List Char) :
    ∀ a : Addr, (h (a ++ s)).isSome → Descendant h a (a ++ s) := by
  induction s with
  | nil => intro a _; simpa using Descendant.self a
  | cons k s ih =>
    intro a hd
    have e : a ++ k :: s = (a ++ [k]) ++ s := by simp
    rw [e] at hd ⊢
    have hx : (h (a ++ [k])).isSome := wf.prefix_closed _ _ (List.prefix_append _ _) hd
    exact Descendant.child k (wf.slot_complete a k hx) (ih _ hd)

/-- On a well-formed heap the descendants of a node are the nodes whose
address extends the address of the node. -/
theorem descendant_iff {h : Heap} (wf : WF h) {a d : Addr} (ha : (h a).isSome) :
    Descendant h a d ↔ (a <+: d ∧ (h d).isSome) := by
  constructor
  · intro hd
    refine ⟨hd.extends wf, ?_⟩
    induction hd with
    | self a => exact ha
    | child k hs _ ih => exact ih (wf.slot_sound _ k _ hs).2
  · rintro ⟨⟨s, rfl⟩, hd⟩
    exact Descendant.of_extends wf s a hd

/-- On a well-formed heap, following the characters of `w` from `a` leads to
the node at `a ++ w` when that node exists. -/
theorem nodeAt_eq {h : Heap} (wf : WF h) (w : List Char) :
    ∀ a : Addr, (h (a ++ w)).isSome → nodeAt h a w = some (a ++ w) := by
  induction w with
  | nil => intro a _; simp [nodeAt]
  | cons c cs ih =>
    intro a ha
    have e : a ++ c :: cs = (a ++ [c]) ++ cs := by simp
    rw [e] at ha ⊢
    have hx : (h (a ++ [c])).isSome := wf.prefix_closed _ _ (List.prefix_append _ _) ha
    have hs := wf.slot_complete a c hx
    simp only [nodeAt, hs]
    exact ih (a ++ [c]) ha

/-- Following the characters of `w` from `a` can only lead to the address `a ++ w`. -/
theorem nodeAt_sound {h : Heap} (wf : WF h) (w : List Char) :
    ∀ a d : Addr, nodeAt h a w = some d → d = a ++ w := by
  induction w with
  | nil => intro a d hd; simp [nodeAt] at hd; simp [hd]
  | cons c cs ih =>
    intro a d hd
    unfold nodeAt at hd
    split at hd
    · rename_i x hs
      have hx := (wf.slot_sound a c x hs).1
      rw [ih x d hd, hx]; simp
    · simp at hd

/-! ## The claims -/

/-- C1. Best completion: after `AddWord` calls with positive counts whose totals
do not overflow, `Request(p)` for a prefix `p` of an inserted word returns an
inserted word `w` that starts with `p` and whose accumulated count is at least
that of every inserted word starting with `p`; the walk ends at the node of
`w`, whose `times` is maximal among the nodes at or below the node of `p`. -/
theorem C1_best_completion (ops : List (List Char × Nat)) (hpos : PositiveCounts ops)
    (hno : NoOverflow ops) (p : List Char) (hp : ∃ w0, Inserted ops w0 ∧ p <+: w0) :
    ∃ t w t1 N, build ops = some t ∧
      (∀ fuel, N ≤ fuel → Request fuel t p = Except.ok (w, t1)) ∧
      p <+: w ∧ Inserted ops w ∧
      (∀ w1, Inserted ops w1 → p <+: w1 → countOf ops w1 ≤ countOf ops w) ∧
      t1.last_node_ = some w ∧
      (∀ d, Descendant t.heap p d → timesAt t.heap d ≤ timesAt t.heap w) := by
  obtain ⟨t, hb, wf, _, halloc, _, _⟩ := build_spec ops
  obtain ⟨g, hnn⟩ := build_good hno hb
  obtain ⟨w0, ⟨o, ho, how⟩, hpw0⟩ := hp
  have hpa : (t.heap p).isSome := (halloc p).mpr (Or.inr ⟨o, ho, how ▸ hpw0⟩)
  have hne : ops ≠ [] := by intro hh; rw [hh] at ho; simp at ho
  obtain ⟨m, hm⟩ := Option.ne_none_iff_exists'.mp (hnn hne p hpa)
  have hmax : ∀ d, p <+: d → countOf ops d ≤ countOf ops m := by
    intro d hd
    have := g.max p m d hm hd
    rwa [build_times_exact hno hb, build_times_exact hno hb] at this
  refine ⟨t, m, _, m.length - p.length, hb, fun fuel hf => Request_hit g hm fuel hf,
    (g.chain p m hm).1, ?_, fun w1 _ hw1 => hmax w1 hw1, rfl, ?_⟩
  · apply inserted_of_countOf_pos
    have h1 := countOf_pos_of_mem hpos ⟨o, ho, how⟩
    have h2 := hmax w0 hpw0
    omega
  · intro d hd
    exact g.max p m d hm (hd.extends wf)

/-- A witness for C1: `AddWord("AB", 5)`, `AddWord("AC", 5)`, then `Request("A")`. -/
theorem C1_best_completion_witness :
    PositiveCounts [("AB".toList, 5), ("AC".toList, 5)] ∧
    NoOverflow [("AB".toList, 5), ("AC".toList, 5)] ∧
    ∃ t w t1 N, build [("AB".toList, 5), ("AC".toList, 5)] = some t ∧
      (∀ fuel, N ≤ fuel → Request fuel t "A".toList = Except.ok (w, t1)) ∧
      "A".toList <+: w ∧ Inserted [("AB".toList, 5), ("AC".toList, 5)] w ∧
      (∀ w1, Inserted [("AB".toList, 5), ("AC".toList, 5)] w1 → "A".toList <+: w1 →
        countOf [("AB".toList, 5), ("AC".toList, 5)] w1 ≤
          countOf [("AB".toList, 5), ("AC".toList, 5)] w) ∧
      t1.last_node_ = some w ∧
      (∀ d, Descendant t.heap "A".toList d → timesAt t.heap d ≤ timesAt t.heap w) :=
  have hpos : PositiveCounts [("AB".toList, 5), ("AC".toList, 5)] := by
    intro o ho; simp at ho; rcases ho with h | h <;> simp [h]
  have hno : NoOverflow [("AB".toList, 5), ("AC".toList, 5)] := by
    intro w; simp only [countOf, U64]; split_ifs <;> omega
  ⟨hpos, hno, C1_best_completion _ hpos hno "A".toList
    ⟨"AB".toList, ⟨("AB".toList, 5), by simp, rfl⟩, by decide⟩⟩

/-- C2 (amended). Invariant I1 after at least one `AddWord` call (totals not
overflowing): every node `N` has a `max_child`, it is `N` or a descendant of
`N`, its `times` is maximal among `N` and the descendants of `N`; if it is not
`N`, `next_probable_letter` is the key of a child of `N` from which `max_child`
descends; if it is `N`, `next_probable_letter` is `'\0'`. -/
theorem C2_cache_invariant (ops : List (List Char × Nat)) (_ : PositiveCounts ops)
    (hno : NoOverflow ops) (hne : ops ≠ []) :
    ∃ t, build ops = some t ∧ ∀ a n, t.heap a = some n →
      ∃ m nm, n.max_child = some m ∧ t.heap m = some nm ∧ Descendant t.heap a m ∧
        (∀ d nd, Descendant t.heap a d → t.heap d = some nd → nd.times ≤ nm.times) ∧
        (m ≠ a → ∃ x, n.children n.next_probable_letter = some (some x) ∧
          Descendant t.heap x m) ∧
        (m = a → n.next_probable_letter = '\x00') := by
  obtain ⟨t, hb, wf, _, _, _, _⟩ := build_spec ops
  obtain ⟨g, hnn⟩ := build_good hno hb
  refine ⟨t, hb, ?_⟩
  intro a n hn
  have ha : (t.heap a).isSome := by simp [hn]
  obtain ⟨m, hm⟩ := Option.ne_none_iff_exists'.mp (hnn hne a ha)
  obtain ⟨nm, hnm⟩ := Option.isSome_iff_exists.mp (wf.cache_alloc a m hm)
  have hma : (t.heap m).isSome := by simp [hnm]
  obtain ⟨c1, c2, c3⟩ := g.chain a m hm
  refine ⟨m, nm, by rw [← cacheAt_of_eq hn, hm], hnm, (descendant_iff wf ha).mpr ⟨c1, hma⟩,
    ?_, ?_, ?_⟩
  · intro d nd hd hnd
    have := g.max a m d hm (hd.extends wf)
    rwa [timesAt_of_eq hnd, timesAt_of_eq hnm] at this
  · intro hne1
    have hx := c3 hne1
    rw [letterAt_of_eq hn] at hx
    have hxa := isSome_of_cacheAt hx
    have hs := wf.slot_complete a n.next_probable_letter hxa
    rw [slotAt_of_eq hn] at hs
    exact ⟨_, hs, (descendant_iff wf hxa).mpr ⟨(g.chain _ m hx).1, hma⟩⟩
  · intro he
    rw [← letterAt_of_eq hn]
    exact c2 he

/-- A witness for C2: the trie after `AddWord("AB", 5)`, `AddWord("AC", 5)`. -/
theorem C2_cache_invariant_witness :
    PositiveCounts [("AB".toList, 5), ("AC".toList, 5)] ∧
    NoOverflow [("AB".toList, 5), ("AC".toList, 5)] ∧
    ∃ t, build [("AB".toList, 5), ("AC".toList, 5)] = some t ∧ ∀ a n, t.heap a = some n →
      ∃ m nm, n.max_child = some m ∧ t.heap m = some nm ∧ Descendant t.heap a m ∧
        (∀ d nd, Descendant t.heap a d → t.heap d = some nd → nd.times ≤ nm.times) ∧
        (m ≠ a → ∃ x, n.children n.next_probable_letter = some (some x) ∧
          Descendant t.heap x m) ∧
        (m = a → n.next_probable_letter = '\x00') :=
  have hpos : PositiveCounts [("AB".toList, 5), ("AC".toList, 5)] := by
    intro o ho; simp at ho; rcases ho with h | h <;> simp [h]
  have hno : NoOverflow [("AB".toList, 5), ("AC".toList, 5)] := by
    intro w; simp only [countOf, U64]; split_ifs <;> omega
  ⟨hpos, hno, C2_cache_invariant _ hpos hno (by simp)⟩

/-- C2 as stated fails for the sequence of no calls: the root of `Trie()` is a
node of the trie and its `max_child` is `nullptr` (line 9). -/
theorem C2_counterexample :
    PositiveCounts [] ∧ NoOverflow [] ∧
    ∃ t n, build [] = some t ∧ t.heap root_ = some n ∧ n.max_child = none :=
  ⟨by intro o ho; simp at ho, by intro w; simp [countOf, U64],
    Trie.empty, Node.fresh, rfl, rfl, rfl⟩

theorem countOf_eq_sum (ops : List (List Char × Nat)) (w : List Char) :
    countOf ops w = ((ops.filter (fun o => decide (o.1 = w))).map Prod.snd).sum := by
  induction ops with
  | nil => rfl
  | cons o ops ih =>
    obtain ⟨w1, c⟩ := o
    by_cases h : w1 = w
    · simp [countOf, h, ih]
    · simp [countOf, h, ih]

/-- C3. Frequency accumulation: for a word `W` inserted at least once,
`Find(root_, W)` is the node at the end of `W`, the one that the `children`
slots lead to along `W` (and `Find` leaves the heap as it was); its `times` is
the sum of the counts of the calls `AddWord(W, _)` modulo `2 ^ 64`, and an
`AddWord` of any other word does not change it. -/
theorem C3_frequency_accumulation (ops : List (List Char × Nat)) (W : List Char)
    (hW : Inserted ops W) :
    ∃ t n, build ops = some t ∧ Find t.heap (some root_) W = some (t.heap, some W) ∧
      nodeAt t.heap root_ W = some W ∧ t.heap W = some n ∧
      n.times = ((ops.filter (fun o => decide (o.1 = W))).map Prod.snd).sum % U64 ∧
      ∀ w c, w ≠ W → ∃ t1 n1, AddWord t w c = some t1 ∧ t1.heap W = some n1 ∧
        n1.times = n.times := by
  obtain ⟨t, hb, wf, ht, halloc, _, _⟩ := build_spec ops
  obtain ⟨o, ho, how⟩ := hW
  have hWa : (t.heap W).isSome := (halloc W).mpr (Or.inr ⟨o, ho, by rw [how]⟩)
  obtain ⟨n, hn⟩ := Option.isSome_iff_exists.mp hWa
  refine ⟨t, n, hb, Find_root_hit wf hWa, nodeAt_eq wf W root_ (by simpa [root_] using hWa),
    hn, ?_, ?_⟩
  · rw [← timesAt_of_eq hn, ht, countOf_eq_sum]
  · intro w c hw
    obtain ⟨t1, h1, ap, _, _⟩ := AddWord_spec wf w c
    have hWa1 : (t1.heap W).isSome := by rw [ap.alloc]; simp [hWa]
    obtain ⟨n1, hn1⟩ := Option.isSome_iff_exists.mp hWa1
    refine ⟨t1, n1, h1, hn1, ?_⟩
    have := ap.times W
    rw [timesAt_of_eq hn1, timesAt_of_eq hn, if_neg (Ne.symm hw)] at this
    exact this

/-- A witness for C3: the word `"AC"` after `AddWord("AB", 5)`, `AddWord("AC", 5)`,
`AddWord("AC", 6)`. -/
theorem C3_frequency_accumulation_witness :
    Inserted [("AB".toList, 5), ("AC".toList, 5), ("AC".toList, 6)] "AC".toList ∧
    ∃ t n, build [("AB".toList, 5), ("AC".toList, 5), ("AC".toList, 6)] = some t ∧
      Find t.heap (some root_) "AC".toList = some (t.heap, some "AC".toList) ∧
      nodeAt t.heap root_ "AC".toList = some "AC".toList ∧ t.heap "AC".toList = some n ∧
      n.times = (([("AB".toList, 5), ("AC".toList, 5), ("AC".toList, 6)].filter
        (fun o => decide (o.1 = "AC".toList))).map Prod.snd).sum % U64 ∧
      ∀ w c, w ≠ "AC".toList → ∃ t1 n1, AddWord t w c = some t1 ∧
        t1.heap "AC".toList = some n1 ∧ n1.times = n.times :=
  have hW : Inserted [("AB".toList, 5), ("AC".toList, 5), ("AC".toList, 6)] "AC".toList :=
    ⟨("AC".toList, 5), by simp, rfl⟩
  ⟨hW, C3_frequency_accumulation _ _ hW⟩

theorem appends_mono (fuel k : Nat) (ss : List (List Char)) :
    ∀ r : List Char × Trie, appends fuel r ss ≠ Except.error Fault.outOfFuel →
      appends (fuel + k) r ss = appends fuel r ss := by
  induction ss with
  | nil => intro r _; rfl
  | cons s ss ih =>
    intro r h
    unfold appends at h ⊢
    cases ha : Append fuel r.2 s with
    | error e =>
      rw [ha] at h
      have he : e ≠ Fault.outOfFuel := fun hh => h (by rw [hh])
      rw [Append_mono (by rw [ha]; intro hh; exact he (Except.error.inj hh)) k, ha]
    | ok r1 =>
      rw [ha] at h
      rw [Append_mono (by rw [ha]; intro hh; cases hh) k, ha]
      exact ih r1 h

theorem session_mono {fuel : Nat} {t : Trie} {p : List Char} {ss : List (List Char)}
    (h : session fuel t p ss ≠ Except.error Fault.outOfFuel) (k : Nat) :
    session (fuel + k) t p ss = session fuel t p ss := by
  unfold session at h ⊢
  cases ha : Request fuel t p with
  | error e =>
    rw [ha] at h
    have he : e ≠ Fault.outOfFuel := fun hh => h (by rw [hh])
    rw [Request_mono (by rw [ha]; intro hh; exact he (Except.error.inj hh)) k, ha]
  | ok r =>
    rw [ha] at h
    rw [Request_mono (by rw [ha]; intro hh; cases hh) k, ha]
    exact appends_mono fuel k ss r h

theorem run_mono (fuel k : Nat) (cs : List Call) :
    ∀ t : Trie, run fuel t cs ≠ Except.error Fault.outOfFuel →
      run (fuel + k) t cs = run fuel t cs := by
  induction cs with
  | nil => intro t _; rfl
  | cons c cs ih =>
    intro t h
    cases c with
    | addWord w n =>
      unfold run at h ⊢
      cases ha : AddWord t w.toList n with
      | none => rfl
      | some t1 =>
        rw [ha] at h
        exact ih t1 h
    | request p =>
      unfold run at h ⊢
      cases ha : Request fuel t p.toList with
      | error e =>
        rw [ha] at h
        have he : e ≠ Fault.outOfFuel := fun hh => h (by rw [hh])
        rw [Request_mono (by rw [ha]; intro hh; exact he (Except.error.inj hh)) k, ha]
      | ok r =>
        rw [ha] at h
        rw [Request_mono (by rw [ha]; intro hh; cases hh) k, ha]
        simp only at h ⊢
        cases hr : run fuel r.2 cs with
        | error e =>
          rw [hr] at h
          have he : e ≠ Fault.outOfFuel := fun hh => h (by rw [hh])
          rw [ih r.2 (by rw [hr]; intro hh; exact he (Except.error.inj hh)), hr]
        | ok r1 =>
          rw [ih r.2 (by rw [hr]; intro hh; cases hh), hr]
    | append p =>
      unfold run at h ⊢
      cases ha : Append fuel t p.toList with
      | error e =>
        rw [ha] at h
        have he : e ≠ Fault.outOfFuel := fun hh => h (by rw [hh])
        rw [Append_mono (by rw [ha]; intro hh; exact he (Except.error.inj hh)) k, ha]
      | ok r =>
        rw [ha] at h
        rw [Append_mono (by rw [ha]; intro hh; cases hh) k, ha]
        simp only at h ⊢
        cases hr : run fuel r.2 cs with
        | error e =>
          rw [hr] at h
          have he : e ≠ Fault.outOfFuel := fun hh => h (by rw [hh])
          rw [ih r.2 (by rw [hr]; intro hh; exact he (Except.error.inj hh)), hr]
        | ok r1 =>
          rw [ih r.2 (by rw [hr]; intro hh; cases hh), hr]

/-- Once a list of calls has returned or has dereferenced null, more fuel
does not change the outcome. -/
theorem outputs_mono {fuel : Nat} {cs : List Call}
    (h : outputs fuel cs ≠ Except.error Fault.outOfFuel) (k : Nat) :
    outputs (fuel + k) cs = outputs fuel cs := by
  unfold outputs at h ⊢
  rw [run_mono fuel k cs Trie.empty]
  intro hh
  rw [hh] at h
  exact h rfl

/-- The outcome of a list of calls is the same for every fuel that is enough. -/
theorem outputs_unique {f1 f2 : Nat} {cs : List Call} {r : Except Fault (List String)}
    (h1 : outputs f1 cs = r) (hr : r ≠ Except.error Fault.outOfFuel)
    (h2 : outputs f2 cs ≠ Except.error Fault.outOfFuel) : outputs f2 cs = r := by
  have a1 := outputs_mono (by rw [h1]; exact hr) f2
  have a2 := outputs_mono h2 f1
  rw [Nat.add_comm] at a2
  rw [← a2, a1, h1]

theorem countOf_append (ops1 ops2 : List (List Char × Nat)) (a : List Char) :
    countOf (ops1 ++ ops2) a = countOf ops1 a + countOf ops2 a := by
  induction ops1 with
  | nil => simp [countOf]
  | cons o ops1 ih =>
    obtain ⟨w, c⟩ := o
    show (if w = a then c else 0) + countOf (ops1 ++ ops2) a
      = (if w = a then c else 0) + countOf ops1 a + countOf ops2 a
    rw [ih]; omega

theorem NoOverflow.left {ops1 ops2 : List (List Char × Nat)} (h : NoOverflow (ops1 ++ ops2)) :
    NoOverflow ops1 := by
  intro w
  have := h w
  rw [countOf_append] at this
  omega

/-- C4 (amended). Greedy-tie stability, for totals that do not overflow: when
`Request(p)` returned `s` and a further `AddWord(w, c)` leaves the
accumulated frequency of `w` not greater than that of `s`, `Request(p)` still
returns `s`. And `AddWord("AB",5)`, `AddWord("AC",5)` make `Request("A")`
return `"AB"`, a further `AddWord("AC",6)` makes it return `"AC"`. -/
theorem C4_tie_stability :
    (∀ (ops : List (List Char × Nat)) (w : List Char) (c : Nat) (p : List Char),
      NoOverflow (ops ++ [(w, c)]) → (∃ w0, Inserted ops w0 ∧ p <+: w0) →
      ∃ t s t1 t2 t3 N, build ops = some t ∧
        (∀ fuel, N ≤ fuel → Request fuel t p = Except.ok (s, t1)) ∧
        AddWord t1 w c = some t2 ∧
        (countOf (ops ++ [(w, c)]) w ≤ countOf (ops ++ [(w, c)]) s →
          ∀ fuel, N ≤ fuel → Request fuel t2 p = Except.ok (s, t3))) ∧
    (∀ fuel, 1 ≤ fuel →
      outputs fuel [Call.addWord "AB" 5, Call.addWord "AC" 5, Call.request "A",
        Call.addWord "AC" 6, Call.request "A"] = Except.ok ["AB", "AC"]) := by
  constructor
  · intro ops w c p hno hp
    have hno1 : NoOverflow ops := hno.left
    obtain ⟨t, hb, wf, _, halloc, _, _⟩ := build_spec ops
    obtain ⟨g, hnn⟩ := build_good hno1 hb
    obtain ⟨w0, ⟨o, ho, how⟩, hpw0⟩ := hp
    have hpa : (t.heap p).isSome := (halloc p).mpr (Or.inr ⟨o, ho, how ▸ hpw0⟩)
    have hne : ops ≠ [] := by intro hh; rw [hh] at ho; simp at ho
    obtain ⟨s, hs⟩ := Option.ne_none_iff_exists'.mp (hnn hne p hpa)
    obtain ⟨t2, h2, ap, _, _⟩ :=
      AddWord_spec (t := { heap := t.heap, last_node_ := some s, last_word := p }) wf w c
    have htimes : ∀ a, timesAt t2.heap a = countOf (ops ++ [(w, c)]) a := by
      intro a
      have h1 := hno a
      rw [countOf_append] at h1 ⊢
      rw [ap.times]
      simp only [build_times_exact hno1 hb]
      by_cases ha : a = w
      · subst ha
        simp only [countOf, if_true, Nat.add_zero] at h1 ⊢
        rw [Nat.mod_eq_of_lt h1]
      · have ha1 : ¬ w = a := fun hh => ha hh.symm
        simp [countOf, ha, ha1]
    have hbw : timesAt t.heap w + c < U64 := by
      have h1 := hno w
      rw [countOf_append] at h1
      rw [build_times_exact hno1 hb]
      simpa [countOf] using h1
    obtain ⟨g2, _⟩ := g.addWord ap hbw
    refine ⟨t, s, _, t2, { heap := t2.heap, last_node_ := some s, last_word := p },
      s.length - p.length, hb, fun fuel hf => Request_hit g hs fuel hf, h2, ?_⟩
    intro hle fuel hf
    have hc2 : cacheAt t2.heap p = some s := by
      rw [ap.cache]
      have hb2 : ¬ beats t2.heap w (cacheAt t.heap p) := by
        show ¬ beats t2.heap w (cacheAt t.heap p)
        rw [hs, beats_some, htimes, htimes]
        omega
      simp only [hb2, and_false, if_false]
      exact hs
    exact Request_hit g2 hc2 fuel hf
  · intro fuel hf
    obtain ⟨k, rfl⟩ := Nat.exists_eq_add_of_le hf
    have h1 : outputs 1 [Call.addWord "AB" 5, Call.addWord "AC" 5, Call.request "A",
        Call.addWord "AC" 6, Call.request "A"] = Except.ok ["AB", "AC"] := by decide!
    rw [outputs_mono (by rw [h1]; intro hh; cases hh) k, h1]

/-- A witness for C4: after `AddWord("AB", 5)`, a further `AddWord("AC", 5)`
and the prefix `"A"`. -/
theorem C4_tie_stability_witness :
    NoOverflow ([("AB".toList, 5)] ++ [("AC".toList, 5)]) ∧
    (∃ w0, Inserted [("AB".toList, 5)] w0 ∧ "A".toList <+: w0) ∧
    ∃ t s t1 t2 t3 N, build [("AB".toList, 5)] = some t ∧
      (∀ fuel, N ≤ fuel → Request fuel t "A".toList = Except.ok (s, t1)) ∧
      AddWord t1 "AC".toList 5 = some t2 ∧
      (countOf ([("AB".toList, 5)] ++ [("AC".toList, 5)]) "AC".toList ≤
          countOf ([("AB".toList, 5)] ++ [("AC".toList, 5)]) s →
        ∀ fuel, N ≤ fuel → Request fuel t2 "A".toList = Except.ok (s, t3)) :=
  have hno : NoOverflow ([("AB".toList, 5)] ++ [("AC".toList, 5)]) := by
    intro w; simp only [List.cons_append, List.nil_append, countOf, U64]; split_ifs <;> omega
  have hp : ∃ w0, Inserted [("AB".toList, 5)] w0 ∧ "A".toList <+: w0 :=
    ⟨"AB".toList, ⟨("AB".toList, 5), by simp, rfl⟩, by decide⟩
  ⟨hno, hp, C4_tie_stability.1 _ _ _ _ hno hp⟩

/-- C4 as stated fails once a count has wrapped around: after these calls
`Request("a")` returns `"abc"` (frequency 5); `AddWord("abx", 3)` leaves `"abx"`
at frequency 3, and the next `Request("a")` dereferences a null pointer. -/
theorem C4_counterexample :
    outputs 2 [Call.addWord "ac" maxU64, Call.addWord "abcd" 10, Call.addWord "ac" 2,
      Call.addWord "abc" 5, Call.addWord "abcd" 18446744073709551608, Call.request "a"]
      = Except.ok ["abc"] ∧
    countOf [("ac".toList, maxU64), ("abcd".toList, 10), ("ac".toList, 2), ("abc".toList, 5),
      ("abcd".toList, 18446744073709551608), ("abx".toList, 3)] "abx".toList ≤
    countOf [("ac".toList, maxU64), ("abcd".toList, 10), ("ac".toList, 2), ("abc".toList, 5),
      ("abcd".toList, 18446744073709551608), ("abx".toList, 3)] "abc".toList ∧
    outputs 3 [Call.addWord "ac" maxU64, Call.addWord "abcd" 10, Call.addWord "ac" 2,
      Call.addWord "abc" 5, Call.addWord "abcd" 18446744073709551608, Call.request "a",
      Call.addWord "abx" 3, Call.request "a"] = Except.error Fault.nullDeref ∧
    ¬ ∃ fuel outs, outputs fuel [Call.addWord "ac" maxU64, Call.addWord "abcd" 10,
      Call.addWord "ac" 2, Call.addWord "abc" 5, Call.addWord "abcd" 18446744073709551608,
      Call.request "a", Call.addWord "abx" 3, Call.request "a"] = Except.ok outs := by
  have h3 : outputs 3 [Call.addWord "ac" maxU64, Call.addWord "abcd" 10, Call.addWord "ac" 2,
      Call.addWord "abc" 5, Call.addWord "abcd" 18446744073709551608, Call.request "a",
      Call.addWord "abx" 3, Call.request "a"] = Except.error Fault.nullDeref := by decide!
  refine ⟨by decide!, by decide!, h3, ?_⟩
  rintro ⟨fuel, outs, ho⟩
  have := outputs_unique h3 (by intro hh; cases hh) (by rw [ho]; intro hh; cases hh)
  rw [ho] at this
  cases this

/-- A list of calls that returns with some fuel returns the same with any
other fuel that is enough. -/
theorem outputs_ok_unique {f1 f2 : Nat} {cs : List Call} {o1 o2 : List String}
    (h1 : outputs f1 cs = Except.ok o1) (h2 : outputs f2 cs = Except.ok o2) : o1 = o2 := by
  have := outputs_unique h1 (by intro hh; cases hh) (by rw [h2]; intro hh; cases hh)
  rw [h2] at this
  exact (Except.ok.inj this).symm

/-- C5 fails on the code. After `AddWord("abc", 1)`, `Request("a")` returns
`"abc"` and leaves `last_node_` at the node of `"abc"` (the loop of
`FindContinuation` advances the member), so `Append("b")` walks from there,
finds no child `b` and returns `"ab"`, where a fresh `Request("ab")` returns
`"abc"`; likewise `Append("")` returns `"a"` where `Request("a")` returned
`"abc"`. -/
theorem C5_append_after_request :
    outputs 2 [Call.addWord "abc" 1, Call.request "a", Call.append "b"]
      = Except.ok ["abc", "ab"] ∧
    outputs 2 [Call.addWord "abc" 1, Call.request "ab"] = Except.ok ["abc"] ∧
    outputs 2 [Call.addWord "abc" 1, Call.request "a", Call.append ""]
      = Except.ok ["abc", "a"] ∧
    ¬ ∃ fuel first, outputs fuel [Call.addWord "abc" 1, Call.request "a", Call.append "b"]
      = Except.ok [first, "abc"] := by
  have h : outputs 2 [Call.addWord "abc" 1, Call.request "a", Call.append "b"]
      = Except.ok ["abc", "ab"] := by decide!
  refine ⟨h, by decide!, by decide!, ?_⟩
  rintro ⟨fuel, first, ho⟩
  have := outputs_ok_unique h ho
  simp at this

/-- C6 fails on the code. `Find` stops at the last node it could reach and
returns it, not null: after `AddWord("abc", 1)`, `Request("xyz")` stays at the
root and returns `"xyzabc"`, and `Request("abx")` returns `"abxc"`. Only on an
empty trie does `Request("xyz")` return `"xyz"`. -/
theorem C6_divergent_request :
    outputs 3 [Call.addWord "abc" 1, Call.request "xyz"] = Except.ok ["xyzabc"] ∧
    outputs 3 [Call.addWord "abc" 1, Call.request "abx"] = Except.ok ["abxc"] ∧
    outputs 0 [Call.request "xyz"] = Except.ok ["xyz"] ∧
    ¬ ∃ fuel, outputs fuel [Call.addWord "abc" 1, Call.request "xyz"] = Except.ok ["xyz"] := by
  have h : outputs 3 [Call.addWord "abc" 1, Call.request "xyz"] = Except.ok ["xyzabc"] := by
    decide!
  refine ⟨h, by decide!, by decide!, ?_⟩
  rintro ⟨fuel, ho⟩
  have := outputs_ok_unique h ho
  simp at this

/-- C9 (amended). With `"cat"`:3 and `"cats"`:1 inserted in either order,
`Request("ca")` returns `"cat"` and the following `Append("t")` returns `"cat"`. -/
theorem C9_cat_scenario (k : Nat) :
    outputs (1 + k) [Call.addWord "cat" 3, Call.addWord "cats" 1, Call.request "ca",
      Call.append "t"] = Except.ok ["cat", "cat"] ∧
    outputs (1 + k) [Call.addWord "cats" 1, Call.addWord "cat" 3, Call.request "ca",
      Call.append "t"] = Except.ok ["cat", "cat"] := by
  have h1 : outputs 1 [Call.addWord "cat" 3, Call.addWord "cats" 1, Call.request "ca",
      Call.append "t"] = Except.ok ["cat", "cat"] := by decide!
  have h2 : outputs 1 [Call.addWord "cats" 1, Call.addWord "cat" 3, Call.request "ca",
      Call.append "t"] = Except.ok ["cat", "cat"] := by decide!
  constructor
  · rw [outputs_mono (by rw [h1]; intro hh; cases hh) k, h1]
  · rw [outputs_mono (by rw [h2]; intro hh; cases hh) k, h2]

/-- C9 as stated fails: in neither order does `Append("t")` return `"cats"`. -/
theorem C9_counterexample :
    (¬ ∃ fuel first, outputs fuel [Call.addWord "cat" 3, Call.addWord "cats" 1,
      Call.request "ca", Call.append "t"] = Except.ok [first, "cats"]) ∧
    (¬ ∃ fuel first, outputs fuel [Call.addWord "cats" 1, Call.addWord "cat" 3,
      Call.request "ca", Call.append "t"] = Except.ok [first, "cats"]) := by
  have h1 : outputs 1 [Call.addWord "cat" 3, Call.addWord "cats" 1, Call.request "ca",
      Call.append "t"] = Except.ok ["cat", "cat"] := by decide!
  have h2 : outputs 1 [Call.addWord "cats" 1, Call.addWord "cat" 3, Call.request "ca",
      Call.append "t"] = Except.ok ["cat", "cat"] := by decide!
  constructor
  · rintro ⟨fuel, first, ho⟩
    have := outputs_ok_unique h1 ho
    simp at this
  · rintro ⟨fuel, first, ho⟩
    have := outputs_ok_unique h2 ho
    simp at this

theorem FindContinuation_total {t : Trie} (g : Good t.heap) (hl : LastOk t) :
    ∃ N r t1, (∀ fuel, N ≤ fuel → FindContinuation fuel t = Except.ok (r, t1)) ∧
      t1.heap = t.heap ∧ LastOk t1 ∧ t1.last_word = t.last_word ∧ t.last_word <+: r := by
  cases hln : t.last_node_ with
  | none =>
    exact ⟨0, t.last_word, t, fun fuel _ => FindContinuation_null hln fuel, rfl, hl, rfl,
      List.prefix_refl _⟩
  | some ln =>
    have ha := hl ln hln
    cases hc : cacheAt t.heap ln with
    | none =>
      exact ⟨0, t.last_word, t, fun fuel _ => FindContinuation_pristine hln ha hc fuel, rfl, hl,
        rfl, List.prefix_refl _⟩
    | some m =>
      refine ⟨m.length - ln.length, _, _,
        fun fuel hf => FindContinuation_good g hln hc fuel hf, rfl, ?_, rfl,
        List.prefix_append _ _⟩
      intro x hx
      have : m = x := by simpa using hx
      subst this
      exact g.wf.cache_alloc ln m hc

theorem Find_total {h : Heap} (wf : WF h) (root : Option Addr)
    (hroot : ∀ a, root = some a → (h a).isSome) (word : List Char) :
    ∃ h1 ln, Find h root word = some (h1, ln) ∧ NullsAdded h h1 ∧
      ∀ a, ln = some a → (h1 a).isSome := by
  cases root with
  | none => exact ⟨h, none, rfl, NullsAdded.refl h, fun a ha => by simp at ha⟩
  | some r =>
    obtain ⟨h1, a, hf, na, ha, _, _, _⟩ := FindLoop_spec word h r wf (hroot r rfl)
    refine ⟨h1, some a, by simp [Find, hf], na, ?_⟩
    intro x hx
    have : a = x := by simpa using hx
    subst this
    rw [na.alloc]; exact ha

theorem Request_total {t : Trie} (g : Good t.heap) (p : List Char) :
    ∃ N r t1, (∀ fuel, N ≤ fuel → Request fuel t p = Except.ok (r, t1)) ∧
      Good t1.heap ∧ LastOk t1 ∧ t1.last_word = p ∧ p <+: r := by
  obtain ⟨h1, ln, hf, na, hln⟩ := Find_total g.wf (some root_)
    (fun a ha => by
      have : root_ = a := by simpa using ha
      subst this; exact g.wf.root) p
  have g1 : Good h1 := na.still_good g
  obtain ⟨N, r, t1, hfc, hh, hl1, hw, hp⟩ :=
    FindContinuation_total (t := { heap := h1, last_node_ := ln, last_word := p }) g1
      (fun a ha => hln a ha)
  refine ⟨N, r, t1, ?_, by rw [hh]; exact g1, hl1, hw, hp⟩
  intro fuel hfuel
  unfold Request
  rw [hf]
  exact hfc fuel hfuel

theorem Append_total {t : Trie} (g : Good t.heap) (hl : LastOk t) (s : List Char) :
    ∃ N r t1, (∀ fuel, N ≤ fuel → Append fuel t s = Except.ok (r, t1)) ∧
      Good t1.heap ∧ LastOk t1 ∧ t1.last_word = t.last_word ++ s ∧
      t.last_word ++ s <+: r := by
  obtain ⟨h1, ln, hf, na, hln⟩ := Find_total g.wf t.last_node_ hl s
  have g1 : Good h1 := na.still_good g
  obtain ⟨N, r, t1, hfc, hh, hl1, hw, hp⟩ :=
    FindContinuation_total
      (t := { heap := h1, last_node_ := ln, last_word := t.last_word ++ s }) g1
      (fun a ha => hln a ha)
  refine ⟨N, r, t1, ?_, by rw [hh]; exact g1, hl1, hw, hp⟩
  intro fuel hfuel
  unfold Append
  rw [hf]
  exact hfc fuel hfuel

theorem appends_total (ss : List (List Char)) :
    ∀ r : List Char × Trie, Good r.2.heap → LastOk r.2 → r.2.last_word <+: r.1 →
      ∃ N r1, (∀ fuel, N ≤ fuel → appends fuel r ss = Except.ok r1) ∧
        r1.2.last_word = r.2.last_word ++ ss.flatten ∧ r1.2.last_word <+: r1.1 := by
  induction ss with
  | nil =>
    intro r _ _ hp
    exact ⟨0, r, fun _ _ => rfl, by simp, hp⟩
  | cons s ss ih =>
    intro r g hl _
    obtain ⟨N1, a, t1, ha, g1, hl1, hw1, hp1⟩ := Append_total g hl s
    obtain ⟨N2, r2, hr2, hw2, hp2⟩ := ih (a, t1) g1 hl1 (by rw [hw1]; exact hp1)
    refine ⟨max N1 N2, r2, ?_, ?_, hp2⟩
    · intro fuel hfuel
      unfold appends
      rw [ha fuel (le_trans (le_max_left _ _) hfuel)]
      exact hr2 fuel (le_trans (le_max_right _ _) hfuel)
    · rw [hw2]
      show t1.last_word ++ ss.flatten = r.2.last_word ++ (s :: ss).flatten
      rw [hw1]; simp

/-- C7 (amended). For a trie built by `AddWord` calls whose totals do not
overflow, every session `Request(p)`, `Append(s1)`, ..., `Append(sn)` runs to
completion; afterwards the stored text is `p ++ s1 ++ ... ++ sn`, and the
string returned by the last call starts with it. -/
theorem C7_literal_suffixes (ops : List (List Char × Nat)) (hno : NoOverflow ops)
    (p : List Char) (ss : List (List Char)) :
    ∃ t N r, build ops = some t ∧
      (∀ fuel, N ≤ fuel → session fuel t p ss = Except.ok r) ∧
      r.2.last_word = p ++ ss.flatten ∧ p ++ ss.flatten <+: r.1 := by
  obtain ⟨t, hb, _⟩ := build_spec ops
  obtain ⟨g, _⟩ := build_good hno hb
  obtain ⟨N1, a, t1, ha, g1, hl1, hw1, hp1⟩ := Request_total g p
  obtain ⟨N2, r2, hr2, hw2, hp2⟩ := appends_total ss (a, t1) g1 hl1 (by rw [hw1]; exact hp1)
  refine ⟨t, max N1 N2, r2, hb, ?_, ?_, ?_⟩
  · intro fuel hfuel
    unfold session
    rw [ha fuel (le_trans (le_max_left _ _) hfuel)]
    exact hr2 fuel (le_trans (le_max_right _ _) hfuel)
  · rw [hw2]; show t1.last_word ++ ss.flatten = p ++ ss.flatten; rw [hw1]
  · rw [← hw1]
    have : t1.last_word ++ ss.flatten = r2.2.last_word := hw2.symm
    rw [this]; exact hp2

/-- A witness for C7: `Request("ca")`, `Append("t")`, `Append("")` after
`AddWord("cat", 3)`, `AddWord("cats", 1)`. -/
theorem C7_literal_suffixes_witness :
    NoOverflow [("cat".toList, 3), ("cats".toList, 1)] ∧
    ∃ t N r, build [("cat".toList, 3), ("cats".toList, 1)] = some t ∧
      (∀ fuel, N ≤ fuel → session fuel t "ca".toList ["t".toList, "".toList] = Except.ok r) ∧
      r.2.last_word = "ca".toList ++ ["t".toList, "".toList].flatten ∧
      "ca".toList ++ ["t".toList, "".toList].flatten <+: r.1 :=
  have hno : NoOverflow [("cat".toList, 3), ("cats".toList, 1)] := by
    intro w; simp only [countOf, U64]; split_ifs <;> omega
  ⟨hno, C7_literal_suffixes _ hno _ _⟩

/-- C7 as stated fails once a count has wrapped around: after these calls the
cache of the node of `"a"` points to `"acd"` while the node of `"ac"` still
caches itself, and `Request("a")` dereferences a null pointer. -/
theorem C7_counterexample :
    outputs 2 [Call.addWord "ab" maxU64, Call.addWord "ac" 5, Call.addWord "ab" 2,
      Call.addWord "acd" 3, Call.request "a"] = Except.error Fault.nullDeref ∧
    ¬ ∃ fuel outs, outputs fuel [Call.addWord "ab" maxU64, Call.addWord "ac" 5,
      Call.addWord "ab" 2, Call.addWord "acd" 3, Call.request "a"] = Except.ok outs := by
  have h : outputs 2 [Call.addWord "ab" maxU64, Call.addWord "ac" 5, Call.addWord "ab" 2,
      Call.addWord "acd" 3, Call.request "a"] = Except.error Fault.nullDeref := by decide!
  refine ⟨h, ?_⟩
  rintro ⟨fuel, outs, ho⟩
  have := outputs_unique h (by intro hh; cases hh) (by rw [ho]; intro hh; cases hh)
  rw [ho] at this
  cases this

theorem build_nil_eq {t : Trie} (hb : build [] = some t) : t = Trie.empty := by
  simp only [build, addWords, Option.some.injEq] at hb
  exact hb.symm

/-- C8 (amended). For totals that do not overflow: when the node of `p` exists
with `times > 0` and every strict descendant of it has a strictly smaller
`times`, `Request(p)` returns `p` itself. -/
theorem C8_terminal_prefix (ops : List (List Char × Nat)) (hno : NoOverflow ops)
    (p : List Char) :
    ∃ t, build ops = some t ∧
      ((t.heap p).isSome → 0 < timesAt t.heap p →
        (∀ d, Descendant t.heap p d → d ≠ p → timesAt t.heap d < timesAt t.heap p) →
        ∃ t1, ∀ fuel, Request fuel t p = Except.ok (p, t1)) := by
  obtain ⟨t, hb, wf, _, _, _, _⟩ := build_spec ops
  obtain ⟨g, hnn⟩ := build_good hno hb
  refine ⟨t, hb, ?_⟩
  intro hpa hpos hdom
  have hne : ops ≠ [] := by
    intro hh
    subst hh
    rw [build_nil_eq hb, empty_timesAt] at hpos
    exact absurd hpos (by simp)
  obtain ⟨m, hm⟩ := Option.ne_none_iff_exists'.mp (hnn hne p hpa)
  have hmp : m = p := by
    by_contra hne1
    have hd : Descendant t.heap p m :=
      (descendant_iff wf hpa).mpr ⟨(g.chain p m hm).1, wf.cache_alloc p m hm⟩
    have h1 := hdom m hd hne1
    have h2 := g.max p m p hm (List.prefix_refl _)
    omega
  subst hmp
  exact ⟨_, fun fuel => Request_hit g hm fuel (by simp)⟩

/-- A witness for C8: the prefix `"the"` after `AddWord("the", 5)`,
`AddWord("theory", 2)`, `AddWord("theater", 3)`. -/
theorem C8_terminal_prefix_witness :
    NoOverflow [("the".toList, 5), ("theory".toList, 2), ("theater".toList, 3)] ∧
    ∃ t, build [("the".toList, 5), ("theory".toList, 2), ("theater".toList, 3)] = some t ∧
      (t.heap "the".toList).isSome ∧ 0 < timesAt t.heap "the".toList ∧
      (∀ d, Descendant t.heap "the".toList d → d ≠ "the".toList →
        timesAt t.heap d < timesAt t.heap "the".toList) ∧
      ∃ t1, ∀ fuel, Request fuel t "the".toList = Except.ok ("the".toList, t1) := by
  have hno : NoOverflow [("the".toList, 5), ("theory".toList, 2), ("theater".toList, 3)] := by
    intro w; simp only [countOf, U64]; split_ifs <;> omega
  obtain ⟨t, hb, himp⟩ := C8_terminal_prefix _ hno "the".toList
  have ht := build_times_exact hno hb
  obtain ⟨t0, hb0, _, _, halloc, _, _⟩ :=
    build_spec [("the".toList, 5), ("theory".toList, 2), ("theater".toList, 3)]
  have e : t = t0 := by rw [hb] at hb0; simpa using hb0
  subst e
  have h1 : (t.heap "the".toList).isSome :=
    (halloc _).mpr (Or.inr ⟨("the".toList, 5), by simp, List.prefix_refl _⟩)
  have h2 : 0 < timesAt t.heap "the".toList := by rw [ht]; decide
  have h3 : ∀ d, Descendant t.heap "the".toList d → d ≠ "the".toList →
      timesAt t.heap d < timesAt t.heap "the".toList := by
    intro d _ hd
    rw [ht, ht]
    have hd1 : ¬ "the".toList = d := fun hh => hd hh.symm
    have e5 : countOf [("the".toList, 5), ("theory".toList, 2), ("theater".toList, 3)]
        "the".toList = 5 := by decide
    rw [e5]
    simp only [countOf, hd1, if_false]
    split_ifs with k1 k2 <;> first | omega | (subst k1; simp at k2)
  exact ⟨hno, t, hb, h1, h2, h3, himp h1 h2 h3⟩

/-- C8 as stated fails on a tie, and after a wrap-around. After
`AddWord("ab", 5)`, `AddWord("a", 5)` the node of `"a"` has `times = 5` and no
descendant exceeds it, yet `Request("a")` returns `"ab"`: the cache is replaced
only by a strictly greater count. After `AddWord("ab", 2^64 - 1)`,
`AddWord("a", 5)`, `AddWord("ab", 2)` the node of `"ab"` holds 1, that of `"a"`
holds 5, and `Request("a")` still returns `"ab"`. -/
theorem C8_counterexample :
    (∃ t, build [("ab".toList, 5), ("a".toList, 5)] = some t ∧
      (t.heap "a".toList).isSome ∧ 0 < timesAt t.heap "a".toList ∧
      (∀ d, Descendant t.heap "a".toList d → d ≠ "a".toList →
        ¬ timesAt t.heap "a".toList < timesAt t.heap d) ∧
      answer (Request 1 t "a".toList) = Except.ok "ab".toList) ∧
    (∃ t, build [("ab".toList, maxU64), ("a".toList, 5), ("ab".toList, 2)] = some t ∧
      (t.heap "a".toList).isSome ∧ 0 < timesAt t.heap "a".toList ∧
      (∀ d, Descendant t.heap "a".toList d → d ≠ "a".toList →
        timesAt t.heap d < timesAt t.heap "a".toList) ∧
      answer (Request 1 t "a".toList) = Except.ok "ab".toList) := by
  constructor
  · obtain ⟨t, hb, _, ht, halloc, _, _⟩ := build_spec [("ab".toList, 5), ("a".toList, 5)]
    refine ⟨t, hb, (halloc _).mpr (Or.inr ⟨("a".toList, 5), by simp, List.prefix_refl _⟩),
      by rw [ht]; decide, ?_, ?_⟩
    · intro d _ _
      rw [ht, ht]
      have e5 : countOf [("ab".toList, 5), ("a".toList, 5)] "a".toList % U64 = 5 := by decide
      rw [e5]
      simp only [countOf, U64]
      split_ifs with k1 k2 <;> first | omega | (subst k1; simp at k2)
    · have e : t = (build [("ab".toList, 5), ("a".toList, 5)]).get (by decide!) := by
        simp only [hb, Option.get_some]
      rw [e]
      decide!
  · obtain ⟨t, hb, _, ht, halloc, _, _⟩ :=
      build_spec [("ab".toList, maxU64), ("a".toList, 5), ("ab".toList, 2)]
    refine ⟨t, hb, (halloc _).mpr (Or.inr ⟨("a".toList, 5), by simp, List.prefix_refl _⟩),
      by rw [ht]; decide, ?_, ?_⟩
    · intro d _ hd
      rw [ht, ht]
      have hd1 : ¬ "a".toList = d := fun hh => hd hh.symm
      have e5 : countOf [("ab".toList, maxU64), ("a".toList, 5), ("ab".toList, 2)]
          "a".toList % U64 = 5 := by decide
      rw [e5]
      simp only [countOf, hd1, if_false, U64, maxU64]
      split_ifs <;> omega
    · have e : t = (build [("ab".toList, maxU64), ("a".toList, 5), ("ab".toList, 2)]).get
          (by decide!) := by
        simp only [hb, Option.get_some]
      rw [e]
      decide!

theorem countOf_perm {ops1 ops2 : List (List Char × Nat)} (hp : ops1.Perm ops2)
    (a : List Char) : countOf ops1 a = countOf ops2 a := by
  induction hp with
  | nil => rfl
  | cons o _ ih =>
    obtain ⟨w, c⟩ := o
    simp only [countOf, ih]
  | swap o1 o2 l =>
    obtain ⟨w1, c1⟩ := o1
    obtain ⟨w2, c2⟩ := o2
    simp only [countOf]
    omega
  | trans _ _ ih1 ih2 => rw [ih1, ih2]

theorem dominant_request {ops : List (List Char × Nat)} (hno : NoOverflow ops)
    {p : List Char} (hp : Inserted ops p)
    (hdom : ∀ w, Inserted ops w → p <+: w → w ≠ p → countOf ops w < countOf ops p) :
    ∃ t t1, build ops = some t ∧ ∀ fuel, Request fuel t p = Except.ok (p, t1) := by
  obtain ⟨t, hb, wf, _, halloc, _, _⟩ := build_spec ops
  obtain ⟨g, hnn⟩ := build_good hno hb
  have ht := build_times_exact hno hb
  obtain ⟨o, ho, hop⟩ := hp
  have hpa : (t.heap p).isSome := (halloc p).mpr (Or.inr ⟨o, ho, by rw [hop]⟩)
  have hne : ops ≠ [] := by intro hh; rw [hh] at ho; simp at ho
  obtain ⟨m, hm⟩ := Option.ne_none_iff_exists'.mp (hnn hne p hpa)
  have hpm := (g.chain p m hm).1
  have hmp : m = p := by
    by_contra hne1
    have h2 := g.max p m p hm (List.prefix_refl _)
    rw [ht, ht] at h2
    rcases Nat.eq_zero_or_pos (countOf ops m) with h0 | h0
    · -- the cached node is on the way to an inserted word, which `p` dominates
      rcases (halloc m).mp (wf.cache_alloc p m hm) with hr | ⟨o1, ho1, hmo⟩
      · rw [hr] at hpm
        exact hne1 (by rw [hr]; exact (List.prefix_nil.mp hpm).symm)
      · have hne2 : o1.1 ≠ p := by
          intro hh
          rw [hh] at hmo
          exact hne1 (hmo.eq_of_length_le hpm.length_le)
        have := hdom o1.1 ⟨o1, ho1, rfl⟩ (hpm.trans hmo) hne2
        omega
    · have := hdom m (inserted_of_countOf_pos h0) hpm hne1
      omega
  subst hmp
  exact ⟨t, _, hb, fun fuel => Request_hit g hm fuel (by simp)⟩

/-- C10 (amended). For totals that do not overflow: when `p` has been inserted
and its accumulated frequency is strictly greater than that of every other
inserted word starting with `p`, `Request(p)` returns `p`, in whatever order
the `AddWord` calls are made; so it is for `"the"`:5, `"theory"`:2,
`"theater"`:3 in any order. -/
theorem C10_dominant_word :
    (∀ (ops ops1 : List (List Char × Nat)) (p : List Char), ops1.Perm ops →
      NoOverflow ops → Inserted ops p →
      (∀ w, Inserted ops w → p <+: w → w ≠ p → countOf ops w < countOf ops p) →
      ∃ t t1, build ops1 = some t ∧ ∀ fuel, Request fuel t p = Except.ok (p, t1)) ∧
    (∀ ops1 : List (List Char × Nat),
      ops1.Perm [("the".toList, 5), ("theory".toList, 2), ("theater".toList, 3)] →
      ∃ t t1, build ops1 = some t ∧
        ∀ fuel, Request fuel t "the".toList = Except.ok ("the".toList, t1)) := by
  have main : ∀ (ops ops1 : List (List Char × Nat)) (p : List Char), ops1.Perm ops →
      NoOverflow ops → Inserted ops p →
      (∀ w, Inserted ops w → p <+: w → w ≠ p → countOf ops w < countOf ops p) →
      ∃ t t1, build ops1 = some t ∧ ∀ fuel, Request fuel t p = Except.ok (p, t1) := by
    intro ops ops1 p hperm hno hp hdom
    have hc : ∀ a, countOf ops1 a = countOf ops a := countOf_perm hperm
    have hi : ∀ w, Inserted ops1 w → Inserted ops w := by
      rintro w ⟨o, ho, hw⟩
      exact ⟨o, hperm.subset ho, hw⟩
    apply dominant_request
    · intro w; rw [hc]; exact hno w
    · obtain ⟨o, ho, hw⟩ := hp
      exact ⟨o, hperm.symm.subset ho, hw⟩
    · intro w hw hpw hne
      rw [hc, hc]
      exact hdom w (hi w hw) hpw hne
  refine ⟨main, ?_⟩
  intro ops1 hperm
  apply main _ ops1 "the".toList hperm
  · intro w; simp only [countOf, U64]; split_ifs <;> omega
  · exact ⟨("the".toList, 5), by simp, rfl⟩
  · rintro w ⟨o, ho, rfl⟩ _ hne
    have e5 : countOf [("the".toList, 5), ("theory".toList, 2), ("theater".toList, 3)]
        "the".toList = 5 := by decide
    rw [e5]
    have hne1 : ¬ "the".toList = o.1 := fun hh => hne hh.symm
    simp only [countOf, hne1, if_false]
    split_ifs with k1 k2 <;> first | omega | (rw [← k1] at k2; simp at k2)

/-- A witness for C10: `"the"`:5, `"theory"`:2, `"theater"`:3, inserted in the
order theater, the, theory. -/
theorem C10_dominant_word_witness :
    List.Perm [("theater".toList, 3), ("the".toList, 5), ("theory".toList, 2)]
      [("the".toList, 5), ("theory".toList, 2), ("theater".toList, 3)] ∧
    NoOverflow [("the".toList, 5), ("theory".toList, 2), ("theater".toList, 3)] ∧
    Inserted [("the".toList, 5), ("theory".toList, 2), ("theater".toList, 3)] "the".toList ∧
    (∀ w, Inserted [("the".toList, 5), ("theory".toList, 2), ("theater".toList, 3)] w →
      "the".toList <+: w → w ≠ "the".toList →
      countOf [("the".toList, 5), ("theory".toList, 2), ("theater".toList, 3)] w <
        countOf [("the".toList, 5), ("theory".toList, 2), ("theater".toList, 3)]
          "the".toList) ∧
    ∃ t t1, build [("theater".toList, 3), ("the".toList, 5), ("theory".toList, 2)] = some t ∧
      ∀ fuel, Request fuel t "the".toList = Except.ok ("the".toList, t1) :=
  have hperm : List.Perm [("theater".toList, 3), ("the".toList, 5), ("theory".toList, 2)]
      [("the".toList, 5), ("theory".toList, 2), ("theater".toList, 3)] := by decide
  have hno : NoOverflow [("the".toList, 5), ("theory".toList, 2), ("theater".toList, 3)] := by
    intro w; simp only [countOf, U64]; split_ifs <;> omega
  have hins : Inserted [("the".toList, 5), ("theory".toList, 2), ("theater".toList, 3)]
      "the".toList := ⟨("the".toList, 5), by simp, rfl⟩
  have hdom : ∀ w, Inserted [("the".toList, 5), ("theory".toList, 2), ("theater".toList, 3)] w →
      "the".toList <+: w → w ≠ "the".toList →
      countOf [("the".toList, 5), ("theory".toList, 2), ("theater".toList, 3)] w <
        countOf [("the".toList, 5), ("theory".toList, 2), ("theater".toList, 3)]
          "the".toList := by
    rintro w ⟨o, ho, rfl⟩ _ hne
    have e5 : countOf [("the".toList, 5), ("theory".toList, 2), ("theater".toList, 3)]
        "the".toList = 5 := by decide
    rw [e5]
    have hne1 : ¬ "the".toList = o.1 := fun hh => hne hh.symm
    simp only [countOf, hne1, if_false]
    split_ifs with k1 k2 <;> first | omega | (rw [← k1] at k2; simp at k2)
  ⟨hperm, hno, hins, hdom, C10_dominant_word.1 _ _ _ hperm hno hins hdom⟩

/-- C10 as stated fails once counts have wrapped around. After `AddWord`
of `"ab"`: 2^64 - 1, `"a"`: 2^64 - 1, `"a"`: 2^64 - 1, `"a"`: 7, `"ab"`: 2, the word
`"a"` has the greater accumulated frequency, as a sum and as stored (5 against
1), and `Request("a")` returns `"ab"`. -/
theorem C10_counterexample :
    Inserted [("ab".toList, maxU64), ("a".toList, maxU64), ("a".toList, maxU64),
      ("a".toList, 7), ("ab".toList, 2)] "a".toList ∧
    (∀ w, Inserted [("ab".toList, maxU64), ("a".toList, maxU64), ("a".toList, maxU64),
        ("a".toList, 7), ("ab".toList, 2)] w → "a".toList <+: w → w ≠ "a".toList →
      countOf [("ab".toList, maxU64), ("a".toList, maxU64), ("a".toList, maxU64),
        ("a".toList, 7), ("ab".toList, 2)] w <
      countOf [("ab".toList, maxU64), ("a".toList, maxU64), ("a".toList, maxU64),
        ("a".toList, 7), ("ab".toList, 2)] "a".toList ∧
      countOf [("ab".toList, maxU64), ("a".toList, maxU64), ("a".toList, maxU64),
        ("a".toList, 7), ("ab".toList, 2)] w % U64 <
      countOf [("ab".toList, maxU64), ("a".toList, maxU64), ("a".toList, maxU64),
        ("a".toList, 7), ("ab".toList, 2)] "a".toList % U64) ∧
    outputs 1 [Call.addWord "ab" maxU64, Call.addWord "a" maxU64, Call.addWord "a" maxU64,
      Call.addWord "a" 7, Call.addWord "ab" 2, Call.request "a"] = Except.ok ["ab"] ∧
    ¬ ∃ fuel, outputs fuel [Call.addWord "ab" maxU64, Call.addWord "a" maxU64,
      Call.addWord "a" maxU64, Call.addWord "a" 7, Call.addWord "ab" 2, Call.request "a"]
      = Except.ok ["a"] := by
  have h : outputs 1 [Call.addWord "ab" maxU64, Call.addWord "a" maxU64,
      Call.addWord "a" maxU64, Call.addWord "a" 7, Call.addWord "ab" 2, Call.request "a"]
      = Except.ok ["ab"] := by decide!
  refine ⟨⟨("a".toList, 7), by simp, rfl⟩, ?_, h, ?_⟩
  · rintro w ⟨o, ho, rfl⟩ _ hne
    have hne1 : ¬ "a".toList = o.1 := fun hh => hne hh.symm
    have hab : o.1 = "ab".toList := by
      simp only [List.mem_cons, List.mem_singleton, List.not_mem_nil, or_false] at ho
      rcases ho with h1 | h1 | h1 | h1 | h1 <;> rw [h1] at hne ⊢ <;> first | rfl | exact absurd rfl hne
    rw [hab]
    constructor <;> decide!
  · rintro ⟨fuel, ho⟩
    have := outputs_ok_unique h ho
    simp at this

/-! ## A trie that holds a single word -/

theorem countOf_eq_zero {ops : List (List Char × Nat)} {d : List Char}
    (h : ∀ o ∈ ops, o.1 ≠ d) : countOf ops d = 0 := by
  induction ops with
  | nil => rfl
  | cons o ops ih =>
    obtain ⟨w1, c⟩ := o
    have h1 : ¬ w1 = d := h (w1, c) (by simp)
    simp only [countOf, h1, if_false, Nat.zero_add]
    exact ih (fun o ho => h o (List.mem_cons_of_mem _ ho))

/-- One `AddWord(w, c)`, on a heap in which every node on the way to `w` has no
cache or caches `w`, leaves every node on the way to `w` caching `w`. -/
theorem single_step {h h1 : Heap} {w : List Char} {c : Nat} (ap : AddPost h root_ w c h1)
    (hP : ∀ a, a <+: w → cacheAt h a = none ∨
      (cacheAt h a = some w ∧ letterAt h a = (w.drop a.length).headD '\x00')) :
    ∀ a, a <+: w →
      cacheAt h1 a = some w ∧ letterAt h1 a = (w.drop a.length).headD '\x00' := by
  intro a ha
  have hon : OnPath root_ w a := (onPath_root w a).mpr ha
  rcases hP a ha with hc | ⟨hc, hl⟩
  · have hb : beats h1 w (cacheAt h a) := by rw [hc]; exact beats_none h1 w
    rw [ap.cache, ap.letter]
    simp [hon, hb]
  · have hb : ¬ beats h1 w (cacheAt h a) := by
      rw [hc, beats_some]; exact Nat.lt_irrefl _
    rw [ap.cache, ap.letter]
    simp only [hb, and_false, if_false]
    exact ⟨hc, hl⟩

theorem single_addWords (w : List Char) (ops : List (List Char × Nat)) :
    ∀ t t1 : Trie, WF t.heap → (∀ o ∈ ops, o.1 = w) →
      (∀ a, a <+: w → cacheAt t.heap a = none ∨
        (cacheAt t.heap a = some w ∧ letterAt t.heap a = (w.drop a.length).headD '\x00')) →
      addWords t ops = some t1 → ops ≠ [] →
      ∀ a, a <+: w →
        cacheAt t1.heap a = some w ∧ letterAt t1.heap a = (w.drop a.length).headD '\x00' := by
  induction ops with
  | nil => intro t t1 _ _ _ _ hne; exact absurd rfl hne
  | cons o ops ih =>
    intro t t2 wf hw hP h2 _
    obtain ⟨w1, c⟩ := o
    have hw1 : w1 = w := hw (w1, c) (by simp)
    subst hw1
    obtain ⟨t1, h1, ap, _, _⟩ := AddWord_spec wf w1 c
    simp only [addWords, h1] at h2
    have hQ := single_step ap hP
    cases ops with
    | nil =>
      simp only [addWords, Option.some.injEq] at h2
      subst h2; exact hQ
    | cons o1 ops1 =>
      exact ih t1 t2 (ap.keeps_wf wf wf.root (by simp [root_]))
        (fun o ho => hw o (List.mem_cons_of_mem _ ho)) (fun a ha => Or.inr (hQ a ha)) h2
        (by simp)

/-- A trie built by calls `AddWord(w, _)` of one word only satisfies the cache
invariant, whatever the counts are, and every node caches `w`. -/
theorem single_good {w : List Char} {ops : List (List Char × Nat)} (hne : ops ≠ [])
    (hw : ∀ o ∈ ops, o.1 = w) {t : Trie} (hb : build ops = some t) :
    Good t.heap ∧ ∀ a, a <+: w → cacheAt t.heap a = some w := by
  obtain ⟨t0, hb0, wf, ht, halloc, _, _⟩ := build_spec ops
  have e : t0 = t := by rw [hb] at hb0; simpa using hb0.symm
  subst e
  have hQ := single_addWords w ops Trie.empty t0 empty_wf hw
    (fun a _ => Or.inl (empty_cacheAt a)) hb hne
  have hon : ∀ a, (t0.heap a).isSome → a <+: w := by
    intro a ha
    rcases (halloc a).mp ha with h1 | ⟨o, ho, hao⟩
    · rw [h1]; simp [root_]
    · rw [hw o ho] at hao; exact hao
  refine ⟨⟨wf, ?_, ?_, ?_⟩, fun a ha => (hQ a ha).1⟩
  · intro a ha hc
    rw [(hQ a (hon a ha)).1] at hc
    simp at hc
  · intro a m hc
    have ha := hon a (isSome_of_cacheAt hc)
    obtain ⟨h1, h2⟩ := hQ a ha
    have hm : m = w := by rw [h1] at hc; simpa using hc.symm
    subst hm
    refine ⟨ha, ?_, ?_⟩
    · intro hma; rw [h2, ← hma]; simp
    · intro hma
      rw [h2]
      exact (hQ _ (pathLetter_le ha (Ne.symm hma))).1
  · intro a m d hc had
    have ha := hon a (isSome_of_cacheAt hc)
    have hm : m = w := by rw [(hQ a ha).1] at hc; simpa using hc.symm
    subst hm
    by_cases hd : d = m
    · rw [hd]
    · rw [ht d, countOf_eq_zero (fun o ho => by rw [hw o ho]; exact Ne.symm hd)]
      simp

/-- C11. Single-word index: on a trie built only by `AddWord(w, c)`, once or
repeated, `Request(p)` returns `w` for every prefix `p` of `w`, the empty
prefix included; after `AddWord("zoo", 1)`, `Request("")` returns `"zoo"`. -/
theorem C11_single_word :
    (∀ (w : List Char) (c n : Nat) (p : List Char), p <+: w →
      ∃ t t1, build (List.replicate (n + 1) (w, c)) = some t ∧
        ∀ fuel, w.length - p.length ≤ fuel → Request fuel t p = Except.ok (w, t1)) ∧
    (∀ fuel, 3 ≤ fuel →
      outputs fuel [Call.addWord "zoo" 1, Call.request ""] = Except.ok ["zoo"]) := by
  constructor
  · intro w c n p hp
    obtain ⟨t, hb, _⟩ := build_spec (List.replicate (n + 1) (w, c))
    have hw : ∀ o ∈ List.replicate (n + 1) (w, c), o.1 = w := by
      intro o ho
      rw [(List.mem_replicate.mp ho).2]
    obtain ⟨g, hQ⟩ := single_good (by simp [List.replicate]) hw hb
    exact ⟨t, _, hb, fun fuel hf => Request_hit g (hQ p hp) fuel hf⟩
  · intro fuel hf
    obtain ⟨k, rfl⟩ := Nat.exists_eq_add_of_le hf
    have h1 : outputs 3 [Call.addWord "zoo" 1, Call.request ""] = Except.ok ["zoo"] := by
      decide!
    rw [outputs_mono (by rw [h1]; intro hh; cases hh) k, h1]

/-- A witness for C11: the prefix `"zo"` after three calls `AddWord("zoo", 2)`. -/
theorem C11_single_word_witness :
    "zo".toList <+: "zoo".toList ∧
    (∃ t t1, build (List.replicate (2 + 1) ("zoo".toList, 2)) = some t ∧
      ∀ fuel, "zoo".toList.length - "zo".toList.length ≤ fuel →
        Request fuel t "zo".toList = Except.ok ("zoo".toList, t1)) :=
  ⟨by decide, C11_single_word.1 "zoo".toList 2 2 "zo".toList (by decide)⟩

/-! ## Queries without a resolved node, and on an empty trie -/

theorem run_concat (fuel : Nat) (cs1 cs2 : List Call) :
    ∀ (t t1 : Trie) (o1 : List String), run fuel t cs1 = Except.ok (o1, t1) →
      run fuel t (cs1 ++ cs2) =
        match run fuel t1 cs2 with
        | Except.error e => Except.error e
        | Except.ok r => Except.ok (o1 ++ r.1, r.2) := by
  induction cs1 with
  | nil =>
    intro t t1 o1 h
    simp only [run, Except.ok.injEq, Prod.mk.injEq] at h
    obtain ⟨h1, h2⟩ := h
    subst h1 h2
    simp only [List.nil_append]
    cases run fuel t cs2 <;> rfl
  | cons c cs ih =>
    intro t t1 o1 h
    cases c with
    | addWord w n =>
      simp only [List.cons_append, run] at h ⊢
      cases ha : AddWord t w.toList n with
      | none => rw [ha] at h; cases h
      | some t2 =>
        rw [ha] at h
        simp only [List.append_eq]
        exact ih t2 t1 o1 h
    | request p =>
      simp only [List.cons_append, run] at h ⊢
      cases ha : Request fuel t p.toList with
      | error e => rw [ha] at h; cases h
      | ok r =>
        rw [ha] at h
        simp only at h ⊢
        cases hr : run fuel r.2 cs with
        | error e => rw [hr] at h; cases h
        | ok r1 =>
          rw [hr] at h
          simp only [Except.ok.injEq, Prod.mk.injEq] at h
          obtain ⟨h1, h2⟩ := h
          subst h1 h2
          simp only [List.append_eq]
          rw [ih r.2 r1.2 r1.1 hr]
          cases run fuel r1.2 cs2 <;> rfl
    | append p =>
      simp only [List.cons_append, run] at h ⊢
      cases ha : Append fuel t p.toList with
      | error e => rw [ha] at h; cases h
      | ok r =>
        rw [ha] at h
        simp only at h ⊢
        cases hr : run fuel r.2 cs with
        | error e => rw [hr] at h; cases h
        | ok r1 =>
          rw [hr] at h
          simp only [Except.ok.injEq, Prod.mk.injEq] at h
          obtain ⟨h1, h2⟩ := h
          subst h1 h2
          simp only [List.append_eq]
          rw [ih r.2 r1.2 r1.1 hr]
          cases run fuel r1.2 cs2 <;> rfl

/-- `Append` with a null `last_node_` returns the typed text and leaves the
pointer null. -/
theorem Append_null {t : Trie} (hl : t.last_node_ = none) (fuel : Nat) (s : List Char) :
    Append fuel t s = Except.ok (t.last_word ++ s,
      { heap := t.heap, last_node_ := none, last_word := t.last_word ++ s }) := by
  simp [Append, hl, Find, FindContinuation]

theorem run_noRequest (fuel : Nat) (cs : List Call) :
    ∀ t : Trie, WF t.heap → t.last_node_ = none → NoRequest cs →
      ∃ outs t1, run fuel t cs = Except.ok (outs, t1) ∧ WF t1.heap ∧
        t1.last_node_ = none ∧ t1.last_word = t.last_word ++ appended cs := by
  induction cs with
  | nil => intro t wf hl _; exact ⟨[], t, rfl, wf, hl, by simp [appended]⟩
  | cons c cs ih =>
    intro t wf hl hq
    have hq1 : NoRequest cs := fun c1 hc1 => hq c1 (List.mem_cons_of_mem _ hc1)
    cases c with
    | addWord w n =>
      obtain ⟨t1, h1, ap, hl1, hw1⟩ := AddWord_spec wf w.toList n
      obtain ⟨outs, t2, h2, wf2, hl2, hw2⟩ :=
        ih t1 (ap.keeps_wf wf wf.root (by simp [root_])) (hl1.trans hl) hq1
      exact ⟨outs, t2, by simp only [run, h1]; exact h2, wf2, hl2,
        by rw [hw2, hw1]; rfl⟩
    | request p => exact absurd rfl (hq _ (by simp) p)
    | append s =>
      obtain ⟨outs, t2, h2, wf2, hl2, hw2⟩ :=
        ih { heap := t.heap, last_node_ := none, last_word := t.last_word ++ s.toList }
          wf rfl hq1
      refine ⟨String.mk (t.last_word ++ s.toList) :: outs, t2, ?_, wf2, hl2, ?_⟩
      · simp only [run, Append_null hl, h2]
      · rw [hw2]; simp [appended]

/-- C12. `Append` before any `Request`: on a trie on which only `AddWord` and
`Append` have been called, in any order, `Append(s)` returns the concatenation
of all the suffixes appended so far (`s` itself for the first one), and
`last_node_` stays null. -/
theorem C12_append_before_request (fuel : Nat) (cs : List Call) (s : String)
    (hq : NoRequest cs) :
    ∃ outs t1, run fuel Trie.empty (cs ++ [Call.append s]) =
        Except.ok (outs ++ [String.mk (appended cs ++ s.toList)], t1) ∧
      t1.last_node_ = none ∧ t1.last_word = appended cs ++ s.toList := by
  obtain ⟨outs, t1, h1, _, hl1, hw1⟩ := run_noRequest fuel cs Trie.empty empty_wf rfl hq
  have hw : t1.last_word = appended cs := by rw [hw1]; rfl
  refine ⟨outs, { heap := t1.heap, last_node_ := none, last_word := t1.last_word ++ s.toList },
    ?_, rfl, by rw [hw]⟩
  rw [run_concat fuel cs [Call.append s] Trie.empty t1 outs h1]
  simp only [run, Append_null hl1, hw]

/-- A witness for C12: `AddWord("cat", 3)`, `Append("c")`, `AddWord("cats", 1)`,
then `Append("a")`. -/
theorem C12_append_before_request_witness :
    NoRequest [Call.addWord "cat" 3, Call.append "c", Call.addWord "cats" 1] ∧
    ∃ outs t1, run 0 Trie.empty
        ([Call.addWord "cat" 3, Call.append "c", Call.addWord "cats" 1] ++ [Call.append "a"]) =
        Except.ok (outs ++ [String.mk (appended
          [Call.addWord "cat" 3, Call.append "c", Call.addWord "cats" 1] ++ "a".toList)], t1) ∧
      t1.last_node_ = none ∧
      t1.last_word =
        appended [Call.addWord "cat" 3, Call.append "c", Call.addWord "cats" 1] ++ "a".toList :=
  have hq : NoRequest [Call.addWord "cat" 3, Call.append "c", Call.addWord "cats" 1] := by
    intro c hc p
    simp only [List.mem_cons, List.mem_singleton, List.not_mem_nil, or_false] at hc
    rcases hc with h | h | h <;> rw [h] <;> simp
  ⟨hq, C12_append_before_request 0 _ "a" hq⟩

/-- On a heap without any cache, `FindContinuation` returns the typed text and
changes nothing. -/
theorem FindContinuation_nocache {t : Trie} (hc : ∀ a, cacheAt t.heap a = none)
    (hl : LastOk t) (fuel : Nat) : FindContinuation fuel t = Except.ok (t.last_word, t) := by
  cases hln : t.last_node_ with
  | none => exact FindContinuation_null hln fuel
  | some ln => exact FindContinuation_pristine hln (hl ln hln) (hc ln) fuel

theorem Request_nocache {t : Trie} (wf : WF t.heap) (hc : ∀ a, cacheAt t.heap a = none)
    (fuel : Nat) (p : List Char) :
    ∃ t1, Request fuel t p = Except.ok (p, t1) ∧ WF t1.heap ∧
      (∀ a, cacheAt t1.heap a = none) ∧ LastOk t1 ∧ t1.last_word = p := by
  obtain ⟨h1, ln, hf, na, hln⟩ := Find_total wf (some root_)
    (fun a ha => by
      have : root_ = a := by simpa using ha
      subst this; exact wf.root) p
  have hc1 : ∀ a, cacheAt h1 a = none := fun a => by rw [na.cache]; exact hc a
  refine ⟨{ heap := h1, last_node_ := ln, last_word := p }, ?_, na.still_wf wf, hc1,
    fun a ha => hln a ha, rfl⟩
  unfold Request
  rw [hf]
  exact FindContinuation_nocache hc1 (fun a ha => hln a ha) fuel

theorem Append_nocache {t : Trie} (wf : WF t.heap) (hc : ∀ a, cacheAt t.heap a = none)
    (hl : LastOk t) (fuel : Nat) (s : List Char) :
    ∃ t1, Append fuel t s = Except.ok (t.last_word ++ s, t1) ∧ WF t1.heap ∧
      (∀ a, cacheAt t1.heap a = none) ∧ LastOk t1 ∧ t1.last_word = t.last_word ++ s := by
  obtain ⟨h1, ln, hf, na, hln⟩ := Find_total wf t.last_node_ hl s
  have hc1 : ∀ a, cacheAt h1 a = none := fun a => by rw [na.cache]; exact hc a
  refine ⟨{ heap := h1, last_node_ := ln, last_word := t.last_word ++ s }, ?_, na.still_wf wf,
    hc1, fun a ha => hln a ha, rfl⟩
  unfold Append
  rw [hf]
  exact FindContinuation_nocache hc1 (fun a ha => hln a ha) fuel

theorem appends_nocache (fuel : Nat) (ss : List (List Char)) :
    ∀ r : List Char × Trie, WF r.2.heap → (∀ a, cacheAt r.2.heap a = none) → LastOk r.2 →
      r.1 = r.2.last_word →
      ∃ t1, appends fuel r ss = Except.ok (r.2.last_word ++ ss.flatten, t1) ∧
        t1.last_word = r.2.last_word ++ ss.flatten := by
  induction ss with
  | nil =>
    intro r _ _ _ hr
    refine ⟨r.2, ?_, by simp⟩
    simp only [appends, List.flatten_nil, List.append_nil]
    rw [← hr]
  | cons s ss ih =>
    intro r wf hc hl _
    obtain ⟨t1, ha, wf1, hc1, hl1, hw1⟩ := Append_nocache wf hc hl fuel s
    obtain ⟨t2, h2, hw2⟩ := ih (r.2.last_word ++ s, t1) wf1 hc1 hl1 hw1.symm
    refine ⟨t2, ?_, ?_⟩
    · simp only [appends, ha]
      rw [h2]
      simp only [hw1, List.flatten_cons, List.append_assoc]
    · rw [hw2]
      simp only [hw1, List.flatten_cons, List.append_assoc]

/-- C13. Queries on a trie into which nothing was inserted: `Request(p)`
returns `p`, and every following `Append` (an `Append("")` included) returns
the text typed so far; every call returns. -/
theorem C13_empty_index (fuel : Nat) (p : List Char) (ss : List (List Char)) :
    ∃ t1, session fuel Trie.empty p ss = Except.ok (p ++ ss.flatten, t1) ∧
      t1.last_word = p ++ ss.flatten := by
  obtain ⟨t1, hr, wf1, hc1, hl1, hw1⟩ := Request_nocache empty_wf empty_cacheAt fuel p
  obtain ⟨t2, h2, hw2⟩ := appends_nocache fuel ss (p, t1) wf1 hc1 hl1 hw1.symm
  refine ⟨t2, ?_, ?_⟩
  · simp only [session, hr]
    rw [h2]
    simp only [hw1]
  · rw [hw2]
    simp only [hw1]

/-! ## Reachable states -/

theorem NullsAdded.symm {h h1 : Heap} (na : NullsAdded h h1) : NullsAdded h1 h :=
  ⟨fun a => (na.alloc a).symm, fun a => (na.times a).symm, fun a => (na.cache a).symm,
    fun a => (na.letter a).symm, fun a k x => (na.slot a k x).symm⟩

/-- Whatever `Find` returns, it has only added null entries to the heap. -/
theorem FindLoop_nulls (word : List Char) :
    ∀ (h h1 : Heap) (cur a : Addr), FindLoop h cur word = some (h1, a) → NullsAdded h h1 := by
  induction word with
  | nil =>
    intro h h1 cur a hf
    simp only [FindLoop, Option.some.injEq, Prod.mk.injEq] at hf
    rw [← hf.1]; exact NullsAdded.refl h
  | cons c cs ih =>
    intro h h1 cur a hf
    unfold FindLoop at hf
    cases hn : h cur with
    | none => rw [hn] at hf; cases hf
    | some n =>
      rw [hn] at hf
      simp only at hf
      cases hc : n.children c with
      | none =>
        rw [hc] at hf
        simp only [Option.some.injEq, Prod.mk.injEq] at hf
        rw [← hf.1]
        refine ⟨?_, ?_, ?_, ?_, ?_⟩
        · intro x
          rw [isSome_set]
          by_cases hx : x = cur
          · simp [hx, hn]
          · simp [hx]
        · intro x
          rw [timesAt_set]
          split_ifs with hx
          · rw [hx, timesAt_of_eq hn]
          · rfl
        · intro x
          rw [cacheAt_set]
          split_ifs with hx
          · rw [hx, cacheAt_of_eq hn]
          · rfl
        · intro x
          rw [letterAt_set]
          split_ifs with hx
          · rw [hx, letterAt_of_eq hn]
          · rfl
        · intro x k y
          rw [slotAt_set]
          split_ifs with hx
          · subst hx
            rw [slotAt_of_eq hn]
            by_cases hk : k = c
            · subst hk; simp [setSlot, hc]
            · simp [setSlot, hk]
          · rfl
      | some v =>
        rw [hc] at hf
        cases v with
        | none =>
          simp only [Option.some.injEq, Prod.mk.injEq] at hf
          rw [← hf.1]; exact NullsAdded.refl h
        | some next => exact ih h h1 next a hf

theorem Find_nulls {h h1 : Heap} {root ln : Option Addr} {word : List Char}
    (hf : Find h root word = some (h1, ln)) : NullsAdded h h1 := by
  unfold Find at hf
  cases root with
  | none =>
    simp only [Option.some.injEq, Prod.mk.injEq] at hf
    rw [← hf.1]; exact NullsAdded.refl h
  | some r =>
    simp only at hf
    cases hl : FindLoop h r word with
    | none => rw [hl] at hf; cases hf
    | some x =>
      rw [hl] at hf
      simp only [Option.some.injEq, Prod.mk.injEq] at hf
      have := FindLoop_nulls word h x.1 r x.2 hl
      rw [← hf.1]; exact this

theorem FindContinuation_heap {fuel : Nat} {t : Trie} {r : List Char × Trie}
    (h : FindContinuation fuel t = Except.ok r) :
    r.2.heap = t.heap ∧ r.2.last_word = t.last_word := by
  unfold FindContinuation at h
  cases hl : t.last_node_ with
  | none =>
    rw [hl] at h
    simp only [Except.ok.injEq] at h
    rw [← h]; exact ⟨rfl, rfl⟩
  | some ln =>
    rw [hl] at h
    simp only at h
    cases hn : t.heap ln with
    | none => rw [hn] at h; cases h
    | some n =>
      rw [hn] at h
      simp only at h
      cases hm : n.max_child with
      | none =>
        rw [hm] at h
        simp only [Except.ok.injEq] at h
        rw [← h]; exact ⟨rfl, rfl⟩
      | some target =>
        rw [hm] at h
        simp only at h
        cases hloop : FindContinuationLoop t.heap target fuel ln t.last_word with
        | error e => rw [hloop] at h; cases h
        | ok x =>
          rw [hloop] at h
          simp only [Except.ok.injEq] at h
          rw [← h]; exact ⟨rfl, rfl⟩

/-- A `Request` that returns has only added null entries to the heap. -/
theorem Request_nulls {fuel : Nat} {t : Trie} {p : List Char} {r : List Char × Trie}
    (h : Request fuel t p = Except.ok r) : NullsAdded t.heap r.2.heap := by
  unfold Request at h
  cases hf : Find t.heap (some root_) p with
  | none => rw [hf] at h; cases h
  | some x =>
    rw [hf] at h
    simp only at h
    rw [(FindContinuation_heap h).1]
    exact Find_nulls hf

/-- An `Append` that returns has only added null entries to the heap. -/
theorem Append_nulls {fuel : Nat} {t : Trie} {s : List Char} {r : List Char × Trie}
    (h : Append fuel t s = Except.ok r) : NullsAdded t.heap r.2.heap := by
  unfold Append at h
  cases hf : Find t.heap t.last_node_ s with
  | none => rw [hf] at h; cases h
  | some x =>
    rw [hf] at h
    simp only at h
    rw [(FindContinuation_heap h).1]
    exact Find_nulls hf

theorem run_wf (fuel : Nat) (cs : List Call) :
    ∀ (t t1 : Trie) (outs : List String), WF t.heap →
      run fuel t cs = Except.ok (outs, t1) → WF t1.heap := by
  induction cs with
  | nil =>
    intro t t1 outs wf h
    simp only [run, Except.ok.injEq, Prod.mk.injEq] at h
    rw [← h.2]; exact wf
  | cons c cs ih =>
    intro t t1 outs wf h
    cases c with
    | addWord w n =>
      obtain ⟨t2, h2, ap, _, _⟩ := AddWord_spec wf w.toList n
      simp only [run, h2] at h
      exact ih t2 t1 outs (ap.keeps_wf wf wf.root (by simp [root_])) h
    | request p =>
      simp only [run] at h
      cases ha : Request fuel t p.toList with
      | error e => rw [ha] at h; cases h
      | ok r =>
        rw [ha] at h
        simp only at h
        cases hr : run fuel r.2 cs with
        | error e => rw [hr] at h; cases h
        | ok r1 =>
          rw [hr] at h
          simp only [Except.ok.injEq, Prod.mk.injEq] at h
          rw [← h.2]
          exact ih r.2 r1.2 r1.1 ((Request_nulls ha).still_wf wf) hr
    | append p =>
      simp only [run] at h
      cases ha : Append fuel t p.toList with
      | error e => rw [ha] at h; cases h
      | ok r =>
        rw [ha] at h
        simp only at h
        cases hr : run fuel r.2 cs with
        | error e => rw [hr] at h; cases h
        | ok r1 =>
          rw [hr] at h
          simp only [Except.ok.injEq, Prod.mk.injEq] at h
          rw [← h.2]
          exact ih r.2 r1.2 r1.1 ((Append_nulls ha).still_wf wf) hr

/-- Every reachable state has a well-formed heap. -/
theorem Reachable.heap_wf {t : Trie} (hr : Reachable t) : WF t.heap := by
  obtain ⟨fuel, cs, outs, h⟩ := hr
  exact run_wf fuel cs Trie.empty t outs empty_wf h

theorem reachable_empty : Reachable Trie.empty := ⟨0, [], [], rfl⟩

/-- C14 (amended). `AddWord("", c)` is neither rejected nor a no-op. In every
reachable state it returns, it adds `c` modulo `2 ^ 64` to the `times` of the
root, and it makes the root its own `max_child` (with letter `'\0'`) exactly
when the root had no `max_child` or its new `times` is greater than that of the
node it cached. The nodes, their `children`, and the `times`, `max_child` and
`next_probable_letter` of every other node stay as they were. -/
theorem C14_empty_word (t : Trie) (hr : Reachable t) (c : Nat) :
    ∃ t1, AddWord t [] c = some t1 ∧
      t1.last_node_ = t.last_node_ ∧ t1.last_word = t.last_word ∧
      (∀ a, (t1.heap a).isSome = (t.heap a).isSome) ∧
      (∀ a k, slotAt t1.heap a k = slotAt t.heap a k) ∧
      (∀ a, a ≠ root_ → timesAt t1.heap a = timesAt t.heap a ∧
        cacheAt t1.heap a = cacheAt t.heap a ∧ letterAt t1.heap a = letterAt t.heap a) ∧
      timesAt t1.heap root_ = (timesAt t.heap root_ + c) % U64 ∧
      ((cacheAt t.heap root_ = none ∨
          ∃ m, cacheAt t.heap root_ = some m ∧ timesAt t1.heap m < timesAt t1.heap root_) →
        cacheAt t1.heap root_ = some root_ ∧ letterAt t1.heap root_ = '\x00') ∧
      (¬ (cacheAt t.heap root_ = none ∨
          ∃ m, cacheAt t.heap root_ = some m ∧ timesAt t1.heap m < timesAt t1.heap root_) →
        cacheAt t1.heap root_ = cacheAt t.heap root_ ∧
        letterAt t1.heap root_ = letterAt t.heap root_) := by
  have wf := hr.heap_wf
  obtain ⟨t1, h1, ap, hl, hw⟩ := AddWord_spec wf [] c
  have hon : ∀ a, OnPath root_ [] a ↔ a = root_ := by
    intro a; rw [onPath_root]; simp [root_]
  have hbeats : beats t1.heap [] (cacheAt t.heap root_) ↔
      (cacheAt t.heap root_ = none ∨
        ∃ m, cacheAt t.heap root_ = some m ∧ timesAt t1.heap m < timesAt t1.heap root_) := by
    cases hc : cacheAt t.heap root_ with
    | none => simp [beats]
    | some m => simp [beats, root_]
  refine ⟨t1, h1, hl, hw, ?_, ?_, ?_, ?_, ?_, ?_⟩
  · intro a
    rw [ap.alloc]
    by_cases ha : a = root_
    · subst ha; simp [wf.root]
    · simp [hon, ha]
  · intro a k
    rw [ap.slot, if_neg]
    intro hh
    have := hh.2.length_le
    simp at this
  · intro a ha
    have ha1 : ¬ a = [] := ha
    refine ⟨?_, ?_, ?_⟩
    · rw [ap.times]; simp [ha1]
    · rw [ap.cache]; simp [hon, ha]
    · rw [ap.letter]; simp [hon, ha]
  · rw [ap.times]; simp [root_]
  · intro hb
    have hb1 := hbeats.mpr hb
    have hp : OnPath root_ [] root_ ∧ beats t1.heap [] (cacheAt t.heap root_) :=
      ⟨(hon _).mpr rfl, hb1⟩
    rw [ap.cache, ap.letter, if_pos hp, if_pos hp]
    exact ⟨rfl, rfl⟩
  · intro hb
    have hb1 : ¬ beats t1.heap [] (cacheAt t.heap root_) := fun hh => hb (hbeats.mp hh)
    rw [ap.cache, ap.letter]
    simp [hb1]

/-- A witness for C14: `AddWord("", 7)` on `Trie()`. -/
theorem C14_empty_word_witness :
    Reachable Trie.empty ∧
    ∃ t1, AddWord Trie.empty [] 7 = some t1 ∧
      t1.last_node_ = Trie.empty.last_node_ ∧ t1.last_word = Trie.empty.last_word ∧
      (∀ a, (t1.heap a).isSome = (Trie.empty.heap a).isSome) ∧
      (∀ a k, slotAt t1.heap a k = slotAt Trie.empty.heap a k) ∧
      (∀ a, a ≠ root_ → timesAt t1.heap a = timesAt Trie.empty.heap a ∧
        cacheAt t1.heap a = cacheAt Trie.empty.heap a ∧
        letterAt t1.heap a = letterAt Trie.empty.heap a) ∧
      timesAt t1.heap root_ = (timesAt Trie.empty.heap root_ + 7) % U64 ∧
      ((cacheAt Trie.empty.heap root_ = none ∨
          ∃ m, cacheAt Trie.empty.heap root_ = some m ∧
            timesAt t1.heap m < timesAt t1.heap root_) →
        cacheAt t1.heap root_ = some root_ ∧ letterAt t1.heap root_ = '\x00') ∧
      (¬ (cacheAt Trie.empty.heap root_ = none ∨
          ∃ m, cacheAt Trie.empty.heap root_ = some m ∧
            timesAt t1.heap m < timesAt t1.heap root_) →
        cacheAt t1.heap root_ = cacheAt Trie.empty.heap root_ ∧
        letterAt t1.heap root_ = letterAt Trie.empty.heap root_) :=
  ⟨reachable_empty, C14_empty_word Trie.empty reachable_empty 7⟩

/-- C14 as stated fails: after `AddWord("ab", 1)`, `Request("")` returns `"ab"`;
`AddWord("", 5)` then raises the `times` of the root from 0 to 5 and makes the
root its own `max_child`, and `Request("")` returns `""`. -/
theorem C14_counterexample :
    outputs 2 [Call.addWord "ab" 1, Call.request "", Call.addWord "" 5, Call.request ""]
      = Except.ok ["ab", ""] ∧
    (∃ t t1, build [("ab".toList, 1)] = some t ∧ AddWord t [] 5 = some t1 ∧
      timesAt t.heap root_ = 0 ∧ timesAt t1.heap root_ = 5 ∧
      cacheAt t.heap root_ = some "ab".toList ∧ cacheAt t1.heap root_ = some root_) := by
  refine ⟨by decide!, ?_⟩
  obtain ⟨t, hb, wf, ht, _⟩ := build_spec [("ab".toList, 1)]
  obtain ⟨t1, h1, ap, _, _⟩ := AddWord_spec wf [] 5
  have e : t = (build [("ab".toList, 1)]).get (by decide!) := by
    simp only [hb, Option.get_some]
  have ht0 : timesAt t.heap root_ = 0 := by rw [ht]; decide
  have hc0 : cacheAt t.heap root_ = some "ab".toList := by rw [e]; decide!
  have ht1 : timesAt t1.heap root_ = 5 := by
    rw [ap.times, ht0]; decide
  have htab : timesAt t1.heap "ab".toList = 1 := by
    rw [ap.times, ht]; decide
  refine ⟨t, t1, hb, h1, ht0, ht1, hc0, ?_⟩
  have hb1 : beats t1.heap [] (some "ab".toList) := by
    rw [beats_some, htab]
    have : timesAt t1.heap [] = 5 := ht1
    rw [this]; decide
  have hon : OnPath root_ [] root_ := ⟨List.prefix_refl _, List.prefix_refl _⟩
  rw [ap.cache, hc0, if_pos ⟨hon, hb1⟩]
  rfl

/-! ## The tokenizer -/

theorem dropWhile_length_le (q : Char → Bool) (l : List Char) :
    (l.dropWhile q).length ≤ l.length := by
  induction l with
  | nil => simp
  | cons c l ih =>
    simp only [List.dropWhile]
    split
    · exact Nat.le_succ_of_le ih
    · exact Nat.le_refl _

/-- One iteration of the outer loop of `ParseText` consumes a character. -/
theorem parse_progress (c : Char) (r : List Char) :
    (((c :: r).dropWhile (fun c => c != ' ')).dropWhile
      (fun c => c == ' ' || c == '\n')).length ≤ r.length := by
  by_cases hc : c = ' '
  · subst hc
    have e : ((' ' :: r).dropWhile (fun c => c != ' ')) = ' ' :: r := by
      simp [List.dropWhile]
    rw [e]
    simp only [List.dropWhile, beq_self_eq_true, Bool.true_or]
    exact dropWhile_length_le _ r
  · have e : ((c :: r).dropWhile (fun c => c != ' ')) = r.dropWhile (fun c => c != ' ') := by
      have hb : (c != ' ') = true := by simp [hc]
      simp only [List.dropWhile, hb]
    rw [e]
    exact (dropWhile_length_le _ _).trans (dropWhile_length_le _ r)

/-- The fuel of `ParseText` never runs out: any fuel that is at least the
length of the text gives the same result. -/
theorem ParseTextLoop_enough :
    ∀ (f1 f2 : Nat) (rest : List Char) (words : WordsCount),
      rest.length ≤ f1 → rest.length ≤ f2 →
      ParseTextLoop f1 rest words = ParseTextLoop f2 rest words := by
  intro f1
  induction f1 with
  | zero =>
    intro f2 rest words h1 _
    have : rest = [] := List.length_eq_zero.mp (Nat.le_zero.mp h1)
    subst this
    cases f2 <;> rfl
  | succ f1 ih =>
    intro f2 rest words h1 h2
    cases rest with
    | nil => cases f2 <;> rfl
    | cons c r =>
      cases f2 with
      | zero => simp at h2
      | succ f2 =>
        simp only [ParseTextLoop]
        have hp := parse_progress c r
        simp only [List.length_cons] at h1 h2
        exact ih f2 _ _ (by omega) (by omega)

/-- C15 fails on the code. A text that starts with a space makes the first
inner loop of `ParseText` stop at once, and the empty word is counted:
`ParseText(" a")` has the keys `""` and `"a"`. Spaces in any other place do not
give an empty word. -/
theorem C15_leading_space :
    ParseText " a".toList = [("".toList, 1), ("a".toList, 1)] ∧
    ParseText "b  a b ".toList = [("b".toList, 2), ("a".toList, 1)] ∧
    ¬ '\n' ∈ " a".toList := by
  refine ⟨by decide!, by decide!, by decide⟩

/-- C16 fails on the code. The first inner loop of `ParseText` stops at a space
only, so a newline that follows a word is part of the word: `ParseText("a\nb")`
has the single key `"a\nb"`, where `ParseText("a b")` has the keys `"a"` and
`"b"`. Only a newline that follows a space is skipped, by the second loop. -/
theorem C16_newline_in_word :
    ParseText "a\nb".toList = [("a\nb".toList, 1)] ∧
    ParseText "a b".toList = [("a".toList, 1), ("b".toList, 1)] ∧
    ParseText "a \nb".toList = [("a".toList, 1), ("b".toList, 1)] ∧
    ParseText "a\n".toList = [("a\n".toList, 1)] := by
  refine ⟨by decide!, by decide!, by decide!, by decide!⟩

/-- C17 fails on the code, by the defect of C6 (`Find` returns the last node it
reached, never null) together with that of C5 (`FindContinuation` moves
`last_node_`). After `AddWord("ab", 5)`, `AddWord("abcd", 1)`, the divergent
`Request("x")` returns `"xab"` and leaves `last_node_` at the node of `"ab"`;
`Append("c")` walks on from there to the node of `"abc"` and returns `"xcd"`,
not the typed text `"xc"`. -/
theorem C17_divergence_not_permanent :
    outputs 2 [Call.addWord "ab" 5, Call.addWord "abcd" 1, Call.request "x", Call.append "c"]
      = Except.ok ["xab", "xcd"] ∧
    lastNodeAfter 2 [Call.addWord "ab" 5, Call.addWord "abcd" 1, Call.request "x"]
      = some "ab".toList ∧
    lastNodeAfter 2 [Call.addWord "ab" 5, Call.addWord "abcd" 1, Call.request "x",
      Call.append "c"] = some "abcd".toList ∧
    ¬ ∃ fuel first, outputs fuel [Call.addWord "ab" 5, Call.addWord "abcd" 1,
      Call.request "x", Call.append "c"] = Except.ok [first, "xc"] := by
  have h : outputs 2 [Call.addWord "ab" 5, Call.addWord "abcd" 1, Call.request "x",
      Call.append "c"] = Except.ok ["xab", "xcd"] := by decide!
  refine ⟨h, by decide!, by decide!, ?_⟩
  rintro ⟨fuel, first, ho⟩
  have := outputs_ok_unique h ho
  simp at this

/-! ## The loop of `FindContinuation`, step by step -/

/-- In a good heap the loop from `a` to the cached node `m` takes as many
iterations as there are characters between `a` and `m`: with that much fuel it
returns, with less it is still running. It never dereferences null. -/
theorem loop_exact {h : Heap} (g : Good h) {m : Addr} :
    ∀ (fuel : Nat) (a : Addr) (result : List Char), cacheAt h a = some m →
      FindContinuationLoop h m fuel a result =
        if (m.drop a.length).length ≤ fuel then Except.ok (m, result ++ m.drop a.length)
        else Except.error Fault.outOfFuel := by
  intro fuel
  induction fuel with
  | zero =>
    intro a result hc
    by_cases hd : (m.drop a.length).length ≤ 0
    · rw [if_pos hd]
      exact loop_good g 0 a result hc (by simpa using hd)
    · rw [if_neg hd]
      have ham : a ≠ m := by
        intro hh; subst hh; simp at hd
      simp [FindContinuationLoop, ham]
  | succ fuel ih =>
    intro a result hc
    by_cases hd : (m.drop a.length).length ≤ fuel + 1
    · rw [if_pos hd]
      exact loop_good g (fuel + 1) a result hc (by simpa using hd)
    · rw [if_neg hd]
      have ham : a ≠ m := by
        intro hh; subst hh; simp at hd
      have hcx := (g.chain a m hc).2.2 (Ne.symm ham)
      have hx := g.wf.slot_complete a (letterAt h a) (isSome_of_cacheAt hcx)
      rw [loop_step fuel result ham hx, ih _ _ hcx, if_neg]
      simp only [List.length_drop, List.length_append, List.length_singleton] at hd ⊢
      omega

theorem run_queries_total (qs : List Call) :
    ∀ t : Trie, Good t.heap → LastOk t → NoAddWord qs →
      ∃ N, ∀ fuel, N ≤ fuel →
        ∃ outs t1, run fuel t qs = Except.ok (outs, t1) ∧ Good t1.heap ∧ LastOk t1 := by
  induction qs with
  | nil => intro t g hl _; exact ⟨0, fun _ _ => ⟨[], t, rfl, g, hl⟩⟩
  | cons c qs ih =>
    intro t g hl hq
    have hq1 : NoAddWord qs := fun c1 hc1 => hq c1 (List.mem_cons_of_mem _ hc1)
    cases c with
    | addWord w n => exact absurd rfl (hq _ (by simp) w n)
    | request p =>
      obtain ⟨N1, r, t1, hr, g1, hl1, _, _⟩ := Request_total g p.toList
      obtain ⟨N2, h2⟩ := ih t1 g1 hl1 hq1
      refine ⟨max N1 N2, fun fuel hf => ?_⟩
      obtain ⟨outs, t2, hrun, g2, hl2⟩ := h2 fuel (le_trans (le_max_right _ _) hf)
      refine ⟨String.mk r :: outs, t2, ?_, g2, hl2⟩
      simp only [run, hr fuel (le_trans (le_max_left _ _) hf), hrun]
    | append s =>
      obtain ⟨N1, r, t1, hr, g1, hl1, _, _⟩ := Append_total g hl s.toList
      obtain ⟨N2, h2⟩ := ih t1 g1 hl1 hq1
      refine ⟨max N1 N2, fun fuel hf => ?_⟩
      obtain ⟨outs, t2, hrun, g2, hl2⟩ := h2 fuel (le_trans (le_max_right _ _) hf)
      refine ⟨String.mk r :: outs, t2, ?_, g2, hl2⟩
      simp only [run, hr fuel (le_trans (le_max_left _ _) hf), hrun]

/-- C18 (amended). For a trie built by `AddWord` calls whose totals do not
overflow, every sequence of `Request` and `Append` calls returns, without a
null dereference. In every state it reaches, a node `a` whose `max_child` is
another node `m` has a child under `next_probable_letter` that caches `m` too;
`m` lies `k` child links below `a`, and the loop of `FindContinuation` from `a`
reaches `m` in exactly `k` iterations. -/
theorem C18_loop_safe (ops : List (List Char × Nat)) (hno : NoOverflow ops)
    (qs : List Call) (hq : NoAddWord qs) :
    ∃ t N, build ops = some t ∧ ∀ fuel, N ≤ fuel →
      ∃ outs t1, run fuel t qs = Except.ok (outs, t1) ∧
        ∀ a m, cacheAt t1.heap a = some m →
          (m ≠ a → ∃ x, slotAt t1.heap a (letterAt t1.heap a) = some (some x) ∧
            cacheAt t1.heap x = some m) ∧
          nodeAt t1.heap a (m.drop a.length) = some m ∧
          ∀ f r, FindContinuationLoop t1.heap m f a r =
            if (m.drop a.length).length ≤ f then Except.ok (m, r ++ m.drop a.length)
            else Except.error Fault.outOfFuel := by
  obtain ⟨t, hb, _, _, _, hl, _⟩ := build_spec ops
  obtain ⟨g, _⟩ := build_good hno hb
  obtain ⟨N, hN⟩ := run_queries_total qs t g (fun ln h => by rw [hl] at h; cases h) hq
  refine ⟨t, N, hb, fun fuel hf => ?_⟩
  obtain ⟨outs, t1, hrun, g1, _⟩ := hN fuel hf
  refine ⟨outs, t1, hrun, ?_⟩
  intro a m hc
  obtain ⟨hp, _, hch⟩ := g1.chain a m hc
  refine ⟨?_, ?_, fun f r => loop_exact g1 f a r hc⟩
  · intro hma
    have hcx := hch hma
    exact ⟨_, g1.wf.slot_complete a _ (isSome_of_cacheAt hcx), hcx⟩
  · obtain ⟨s, rfl⟩ := hp
    have := nodeAt_eq g1.wf s a (g1.wf.cache_alloc a _ hc)
    simpa using this

/-- A witness for C18: `Request("ca")`, `Append("t")`, `Request("x")` after
`AddWord("cat", 3)`, `AddWord("cats", 1)`. -/
theorem C18_loop_safe_witness :
    NoOverflow [("cat".toList, 3), ("cats".toList, 1)] ∧
    NoAddWord [Call.request "ca", Call.append "t", Call.request "x"] ∧
    ∃ t N, build [("cat".toList, 3), ("cats".toList, 1)] = some t ∧ ∀ fuel, N ≤ fuel →
      ∃ outs t1, run fuel t [Call.request "ca", Call.append "t", Call.request "x"]
          = Except.ok (outs, t1) ∧
        ∀ a m, cacheAt t1.heap a = some m →
          (m ≠ a → ∃ x, slotAt t1.heap a (letterAt t1.heap a) = some (some x) ∧
            cacheAt t1.heap x = some m) ∧
          nodeAt t1.heap a (m.drop a.length) = some m ∧
          ∀ f r, FindContinuationLoop t1.heap m f a r =
            if (m.drop a.length).length ≤ f then Except.ok (m, r ++ m.drop a.length)
            else Except.error Fault.outOfFuel :=
  have hno : NoOverflow [("cat".toList, 3), ("cats".toList, 1)] := by
    intro w; simp only [countOf, U64]; split_ifs <;> omega
  have hq : NoAddWord [Call.request "ca", Call.append "t", Call.request "x"] := by
    intro c hc w n
    simp only [List.mem_cons, List.mem_singleton, List.not_mem_nil, or_false] at hc
    rcases hc with h | h | h <;> rw [h] <;> simp
  ⟨hno, hq, C18_loop_safe _ hno _ hq⟩

/-- C18 as stated fails once a count has wrapped around: after these calls the
node of `"x"` caches `"xzw"` but the node of `"xz"` below it caches itself, with
letter `'\0'`; the loop of `Request("x")` finds no child under `'\0'` and
dereferences null. -/
theorem C18_counterexample :
    outputs 2 [Call.addWord "xy" maxU64, Call.addWord "xz" 5, Call.addWord "xy" 2,
      Call.addWord "xzw" 3, Call.request "x"] = Except.error Fault.nullDeref ∧
    ¬ ∃ fuel outs, outputs fuel [Call.addWord "xy" maxU64, Call.addWord "xz" 5,
      Call.addWord "xy" 2, Call.addWord "xzw" 3, Call.request "x"] = Except.ok outs := by
  have h : outputs 2 [Call.addWord "xy" maxU64, Call.addWord "xz" 5, Call.addWord "xy" 2,
      Call.addWord "xzw" 3, Call.request "x"] = Except.error Fault.nullDeref := by decide!
  refine ⟨h, ?_⟩
  rintro ⟨fuel, outs, ho⟩
  have := outputs_unique h (by intro hh; cases hh) (by rw [ho]; intro hh; cases hh)
  rw [ho] at this
  cases this

/-! ## Queries do not depend on null entries -/

/-- On two heaps that differ by null entries only, `Find` stops at the same node. -/
theorem FindLoop_addr_congr {h h1 : Heap} (na : NullsAdded h h1) (word : List Char) :
    ∀ cur : Addr, (FindLoop h cur word).map Prod.snd = (FindLoop h1 cur word).map Prod.snd := by
  induction word with
  | nil => intro cur; rfl
  | cons c cs ih =>
    intro cur
    have hal := na.alloc cur
    cases hn : h cur with
    | none =>
      rw [hn] at hal
      have hn1 : h1 cur = none := by
        cases h1c : h1 cur with
        | none => rfl
        | some _ => rw [h1c] at hal; simp at hal
      simp [FindLoop, hn, hn1]
    | some n =>
      rw [hn] at hal
      obtain ⟨n1, hn1⟩ := Option.isSome_iff_exists.mp (by simpa using hal)
      have hs := fun x => na.slot cur c x
      simp only [slotAt_of_eq hn, slotAt_of_eq hn1] at hs
      by_cases hx : ∃ x, n.children c = some (some x)
      · obtain ⟨x, hx⟩ := hx
        have hx1 := (hs x).mpr hx
        simp only [FindLoop, hn, hn1, hx, hx1]
        exact ih x
      · have hx1 : ¬ ∃ x, n1.children c = some (some x) := fun ⟨x, hh⟩ => hx ⟨x, (hs x).mp hh⟩
        have e : (FindLoop h cur (c :: cs)).map Prod.snd = some cur := by
          simp only [FindLoop, hn]
          cases hc : n.children c with
          | none => rfl
          | some v =>
            cases v with
            | none => rfl
            | some x => exact absurd ⟨x, hc⟩ hx
        have e1 : (FindLoop h1 cur (c :: cs)).map Prod.snd = some cur := by
          simp only [FindLoop, hn1]
          cases hc : n1.children c with
          | none => rfl
          | some v =>
            cases v with
            | none => rfl
            | some x => exact absurd ⟨x, hc⟩ hx1
        rw [e, e1]

/-- On two heaps that differ by null entries only, the loop of
`FindContinuation` runs the same way. -/
theorem loop_congr {h h1 : Heap} (na : NullsAdded h h1) (target : Addr) :
    ∀ (fuel : Nat) (last : Addr) (result : List Char),
      FindContinuationLoop h1 target fuel last result =
        FindContinuationLoop h target fuel last result := by
  intro fuel
  induction fuel with
  | zero => intro last result; simp [FindContinuationLoop]
  | succ fuel ih =>
    intro last result
    by_cases hl : last = target
    · subst hl; rw [loop_done, loop_done]
    · have hal := na.alloc last
      cases hn : h last with
      | none =>
        rw [hn] at hal
        have hn1 : h1 last = none := by
          cases h1c : h1 last with
          | none => rfl
          | some _ => rw [h1c] at hal; simp at hal
        simp [FindContinuationLoop, hl, hn, hn1]
      | some n =>
        rw [hn] at hal
        obtain ⟨n1, hn1⟩ := Option.isSome_iff_exists.mp (by simpa using hal)
        have hlet : n1.next_probable_letter = n.next_probable_letter := by
          have := na.letter last
          rwa [letterAt_of_eq hn, letterAt_of_eq hn1] at this
        have hs := fun x => na.slot last n.next_probable_letter x
        simp only [slotAt_of_eq hn, slotAt_of_eq hn1] at hs
        unfold FindContinuationLoop
        simp only [hl, if_false, hn, hn1, hlet]
        cases hc : n.children n.next_probable_letter with
        | none =>
          cases hc1 : n1.children n.next_probable_letter with
          | none => rfl
          | some v =>
            cases v with
            | none => rfl
            | some x => have := (hs x).mp hc1; rw [hc] at this; cases this
        | some v =>
          cases v with
          | none =>
            cases hc1 : n1.children n.next_probable_letter with
            | none => rfl
            | some v1 =>
              cases v1 with
              | none => rfl
              | some x => have := (hs x).mp hc1; rw [hc] at this; cases this
          | some x =>
            rw [(hs x).mpr hc]
            exact ih x _

/-- On two states that differ by null entries only, `FindContinuation` returns
the same string. -/
theorem FindContinuation_congr {t t1 : Trie} (na : NullsAdded t.heap t1.heap)
    (hl : t1.last_node_ = t.last_node_) (hw : t1.last_word = t.last_word) (fuel : Nat) :
    answer (FindContinuation fuel t1) = answer (FindContinuation fuel t) := by
  unfold FindContinuation
  rw [hl, hw]
  cases hln : t.last_node_ with
  | none => rfl
  | some ln =>
    simp only
    have hal := na.alloc ln
    cases hn : t.heap ln with
    | none =>
      rw [hn] at hal
      have hn1 : t1.heap ln = none := by
        cases h1c : t1.heap ln with
        | none => rfl
        | some _ => rw [h1c] at hal; simp at hal
      rw [hn1]
    | some n =>
      rw [hn] at hal
      obtain ⟨n1, hn1⟩ := Option.isSome_iff_exists.mp (by simpa using hal)
      have hm : n1.max_child = n.max_child := by
        have := na.cache ln
        rwa [cacheAt_of_eq hn, cacheAt_of_eq hn1] at this
      rw [hn1]
      simp only [hm]
      cases hmc : n.max_child with
      | none => rfl
      | some target =>
        simp only
        rw [loop_congr na target]
        cases FindContinuationLoop t.heap target fuel ln t.last_word <;> rfl

/-- What `Request(p)` returns depends on the heap up to null entries only. -/
theorem Request_congr {t t1 : Trie} (na : NullsAdded t.heap t1.heap) (fuel : Nat)
    (p : List Char) : answer (Request fuel t1 p) = answer (Request fuel t p) := by
  have hadd := FindLoop_addr_congr na p root_
  unfold Request Find
  simp only
  cases hf : FindLoop t.heap root_ p with
  | none =>
    rw [hf] at hadd
    cases hf1 : FindLoop t1.heap root_ p with
    | none => rfl
    | some x => rw [hf1] at hadd; simp at hadd
  | some x =>
    rw [hf] at hadd
    cases hf1 : FindLoop t1.heap root_ p with
    | none => rw [hf1] at hadd; simp at hadd
    | some x1 =>
      rw [hf1] at hadd
      have hx : x.2 = x1.2 := by simpa using hadd
      simp only
      have n0 := FindLoop_nulls p t.heap x.1 root_ x.2 hf
      have n1 := FindLoop_nulls p t1.heap x1.1 root_ x1.2 hf1
      exact @FindContinuation_congr
        { heap := x.1, last_node_ := some x.2, last_word := p }
        { heap := x1.1, last_node_ := some x1.2, last_word := p }
        (n0.symm.trans (na.trans n1)) (by rw [hx]) rfl fuel

/-- `AddWord` on two well-formed heaps that differ by null entries only gives
heaps that differ by null entries only. -/
theorem AddPost.congr {h h1 u u1 : Heap} {w : List Char} {c : Nat}
    (na : NullsAdded h h1) (ap : AddPost h root_ w c u) (ap1 : AddPost h1 root_ w c u1) :
    NullsAdded u u1 := by
  have ht : ∀ a, timesAt u1 a = timesAt u a := by
    intro a; rw [ap.times, ap1.times, na.times]
  refine ⟨?_, ht, ?_, ?_, ?_⟩
  · intro a; rw [ap.alloc, ap1.alloc, na.alloc]
  · intro a
    rw [ap.cache, ap1.cache, na.cache]
    have hb := beats_congr u1 u ht w (cacheAt h a)
    simp only [hb]
  · intro a
    rw [ap.letter, ap1.letter, na.cache, na.letter]
    have hb := beats_congr u1 u ht w (cacheAt h a)
    simp only [hb]
  · intro a k x
    rw [ap.slot, ap1.slot]
    split_ifs
    · exact Iff.rfl
    · exact na.slot a k x

theorem run_queries_nulls (fuel : Nat) (qs : List Call) :
    ∀ (t t1 : Trie) (outs : List String), NoAddWord qs →
      run fuel t qs = Except.ok (outs, t1) → NullsAdded t.heap t1.heap := by
  induction qs with
  | nil =>
    intro t t1 outs _ h
    simp only [run, Except.ok.injEq, Prod.mk.injEq] at h
    rw [← h.2]; exact NullsAdded.refl _
  | cons c qs ih =>
    intro t t1 outs hq h
    have hq1 : NoAddWord qs := fun c1 hc1 => hq c1 (List.mem_cons_of_mem _ hc1)
    cases c with
    | addWord w n => exact absurd rfl (hq _ (by simp) w n)
    | request p =>
      simp only [run] at h
      cases ha : Request fuel t p.toList with
      | error e => rw [ha] at h; cases h
      | ok r =>
        rw [ha] at h
        simp only at h
        cases hr : run fuel r.2 qs with
        | error e => rw [hr] at h; cases h
        | ok r1 =>
          rw [hr] at h
          simp only [Except.ok.injEq, Prod.mk.injEq] at h
          rw [← h.2]
          exact (Request_nulls ha).trans (ih r.2 r1.2 r1.1 hq1 hr)
    | append p =>
      simp only [run] at h
      cases ha : Append fuel t p.toList with
      | error e => rw [ha] at h; cases h
      | ok r =>
        rw [ha] at h
        simp only at h
        cases hr : run fuel r.2 qs with
        | error e => rw [hr] at h; cases h
        | ok r1 =>
          rw [hr] at h
          simp only [Except.ok.injEq, Prod.mk.injEq] at h
          rw [← h.2]
          exact (Append_nulls ha).trans (ih r.2 r1.2 r1.1 hq1 hr)

theorem OnlyNulls.same (h : Heap) : OnlyNulls h h := fun _ _ => Or.inl rfl

theorem OnlyNulls.after {h h1 h2 : Heap} (a1 : OnlyNulls h h1) (a2 : OnlyNulls h1 h2) :
    OnlyNulls h h2 := by
  intro a k
  rcases a2 a k with e2 | ⟨n2, s2⟩
  · rcases a1 a k with e1 | ⟨n1, s1⟩
    · exact Or.inl (e2.trans e1)
    · exact Or.inr ⟨n1, e2.trans s1⟩
  · rcases a1 a k with e1 | ⟨n1, s1⟩
    · exact Or.inr ⟨by rw [← e1]; exact n2, s2⟩
    · rw [s1] at n2; cases n2

theorem FindLoop_onlyNulls (word : List Char) :
    ∀ (h h1 : Heap) (cur a : Addr), FindLoop h cur word = some (h1, a) → OnlyNulls h h1 := by
  induction word with
  | nil =>
    intro h h1 cur a hf
    simp only [FindLoop, Option.some.injEq, Prod.mk.injEq] at hf
    rw [← hf.1]; exact OnlyNulls.same h
  | cons c cs ih =>
    intro h h1 cur a hf
    unfold FindLoop at hf
    cases hn : h cur with
    | none => rw [hn] at hf; cases hf
    | some n =>
      rw [hn] at hf
      simp only at hf
      cases hc : n.children c with
      | none =>
        rw [hc] at hf
        simp only [Option.some.injEq, Prod.mk.injEq] at hf
        rw [← hf.1]
        intro x k
        rw [slotAt_set]
        by_cases hx : x = cur
        · subst hx
          rw [if_pos rfl, slotAt_of_eq hn]
          by_cases hk : k = c
          · subst hk
            exact Or.inr ⟨hc, by simp [setSlot]⟩
          · exact Or.inl (by simp [setSlot, hk])
        · exact Or.inl (by rw [if_neg hx])
      | some v =>
        rw [hc] at hf
        cases v with
        | none =>
          simp only [Option.some.injEq, Prod.mk.injEq] at hf
          rw [← hf.1]; exact OnlyNulls.same h
        | some next => exact ih h h1 next a hf

theorem Find_onlyNulls {h h1 : Heap} {root ln : Option Addr} {word : List Char}
    (hf : Find h root word = some (h1, ln)) : OnlyNulls h h1 := by
  unfold Find at hf
  cases root with
  | none =>
    simp only [Option.some.injEq, Prod.mk.injEq] at hf
    rw [← hf.1]; exact OnlyNulls.same h
  | some r =>
    simp only at hf
    cases hl : FindLoop h r word with
    | none => rw [hl] at hf; cases hf
    | some x =>
      rw [hl] at hf
      simp only [Option.some.injEq, Prod.mk.injEq] at hf
      have := FindLoop_onlyNulls word h x.1 r x.2 hl
      rw [← hf.1]; exact this

theorem Request_onlyNulls {fuel : Nat} {t : Trie} {p : List Char} {r : List Char × Trie}
    (h : Request fuel t p = Except.ok r) : OnlyNulls t.heap r.2.heap := by
  unfold Request at h
  cases hf : Find t.heap (some root_) p with
  | none => rw [hf] at h; cases h
  | some x =>
    rw [hf] at h
    simp only at h
    rw [(FindContinuation_heap h).1]
    exact Find_onlyNulls hf

theorem Append_onlyNulls {fuel : Nat} {t : Trie} {s : List Char} {r : List Char × Trie}
    (h : Append fuel t s = Except.ok r) : OnlyNulls t.heap r.2.heap := by
  unfold Append at h
  cases hf : Find t.heap t.last_node_ s with
  | none => rw [hf] at h; cases h
  | some x =>
    rw [hf] at h
    simp only at h
    rw [(FindContinuation_heap h).1]
    exact Find_onlyNulls hf

theorem run_queries_onlyNulls (fuel : Nat) (qs : List Call) :
    ∀ (t t1 : Trie) (outs : List String), NoAddWord qs →
      run fuel t qs = Except.ok (outs, t1) → OnlyNulls t.heap t1.heap := by
  induction qs with
  | nil =>
    intro t t1 outs _ h
    simp only [run, Except.ok.injEq, Prod.mk.injEq] at h
    rw [← h.2]; exact OnlyNulls.same _
  | cons c qs ih =>
    intro t t1 outs hq h
    have hq1 : NoAddWord qs := fun c1 hc1 => hq c1 (List.mem_cons_of_mem _ hc1)
    cases c with
    | addWord w n => exact absurd rfl (hq _ (by simp) w n)
    | request p =>
      simp only [run] at h
      cases ha : Request fuel t p.toList with
      | error e => rw [ha] at h; cases h
      | ok r =>
        rw [ha] at h
        simp only at h
        cases hr : run fuel r.2 qs with
        | error e => rw [hr] at h; cases h
        | ok r1 =>
          rw [hr] at h
          simp only [Except.ok.injEq, Prod.mk.injEq] at h
          rw [← h.2]
          exact (Request_onlyNulls ha).after (ih r.2 r1.2 r1.1 hq1 hr)
    | append p =>
      simp only [run] at h
      cases ha : Append fuel t p.toList with
      | error e => rw [ha] at h; cases h
      | ok r =>
        rw [ha] at h
        simp only at h
        cases hr : run fuel r.2 qs with
        | error e => rw [hr] at h; cases h
        | ok r1 =>
          rw [hr] at h
          simp only [Except.ok.injEq, Prod.mk.injEq] at h
          rw [← h.2]
          exact (Append_onlyNulls ha).after (ih r.2 r1.2 r1.1 hq1 hr)

/-- C19. Queries do not alter the index. When a sequence of `Request` and
`Append` calls has run on a reachable state, the nodes are the same and so are
their `times`, `max_child` and `next_probable_letter`; a `children` slot is as
it was or has turned from absent into a null entry, so the characters that
lead to a node are the same. Then `Request(p)` returns the same as before the
queries, `AddWord` leaves heaps that again differ by null entries only, and
`Request(p)` after that `AddWord` returns the same in both. -/
theorem C19_queries_frame (t : Trie) (hr : Reachable t) (fuel : Nat) (qs : List Call)
    (hq : NoAddWord qs) (outs : List String) (t2 : Trie)
    (hrun : run fuel t qs = Except.ok (outs, t2)) :
    (∀ a, (t2.heap a).isSome = (t.heap a).isSome) ∧
    (∀ a, timesAt t2.heap a = timesAt t.heap a) ∧
    (∀ a, cacheAt t2.heap a = cacheAt t.heap a) ∧
    (∀ a, letterAt t2.heap a = letterAt t.heap a) ∧
    (∀ a k, slotAt t2.heap a k = slotAt t.heap a k ∨
      (slotAt t.heap a k = none ∧ slotAt t2.heap a k = some none)) ∧
    (∀ a k x, slotAt t2.heap a k = some (some x) ↔ slotAt t.heap a k = some (some x)) ∧
    (∀ f p, answer (Request f t2 p) = answer (Request f t p)) ∧
    (∀ w c, ∃ u u2, AddWord t w c = some u ∧ AddWord t2 w c = some u2 ∧
      NullsAdded u.heap u2.heap ∧
      ∀ f p, answer (Request f u2 p) = answer (Request f u p)) := by
  have na := run_queries_nulls fuel qs t t2 outs hq hrun
  have wf := hr.heap_wf
  refine ⟨na.alloc, na.times, na.cache, na.letter,
    run_queries_onlyNulls fuel qs t t2 outs hq hrun, na.slot,
    fun f p => Request_congr na f p, ?_⟩
  intro w c
  obtain ⟨u, hu, ap, _, _⟩ := AddWord_spec wf w c
  obtain ⟨u2, hu2, ap2, _, _⟩ := AddWord_spec (na.still_wf wf) w c
  have nu := ap.congr na ap2
  exact ⟨u, u2, hu, hu2, nu, fun f p => Request_congr nu f p⟩

/-- A witness for C19: `Request("x")`, `Append("y")` on `Trie()`. -/
theorem C19_queries_frame_witness :
    Reachable Trie.empty ∧ NoAddWord [Call.request "x", Call.append "y"] ∧
    ∃ outs t2, run 0 Trie.empty [Call.request "x", Call.append "y"] = Except.ok (outs, t2) ∧
      (∀ a, (t2.heap a).isSome = (Trie.empty.heap a).isSome) ∧
      (∀ a, timesAt t2.heap a = timesAt Trie.empty.heap a) ∧
      (∀ a, cacheAt t2.heap a = cacheAt Trie.empty.heap a) ∧
      (∀ a, letterAt t2.heap a = letterAt Trie.empty.heap a) ∧
      (∀ a k, slotAt t2.heap a k = slotAt Trie.empty.heap a k ∨
        (slotAt Trie.empty.heap a k = none ∧ slotAt t2.heap a k = some none)) ∧
      (∀ a k x, slotAt t2.heap a k = some (some x) ↔
        slotAt Trie.empty.heap a k = some (some x)) ∧
      (∀ f p, answer (Request f t2 p) = answer (Request f Trie.empty p)) ∧
      (∀ w c, ∃ u u2, AddWord Trie.empty w c = some u ∧ AddWord t2 w c = some u2 ∧
        NullsAdded u.heap u2.heap ∧
        ∀ f p, answer (Request f u2 p) = answer (Request f u p)) := by
  have hq : NoAddWord [Call.request "x", Call.append "y"] := by
    intro c hc w n
    simp only [List.mem_cons, List.mem_singleton, List.not_mem_nil, or_false] at hc
    rcases hc with h | h <;> rw [h] <;> simp
  refine ⟨reachable_empty, hq, ?_⟩
  cases h : run 0 Trie.empty [Call.request "x", Call.append "y"] with
  | error e =>
    have ho : outputs 0 [Call.request "x", Call.append "y"] = Except.ok ["x", "xy"] := by
      decide!
    unfold outputs at ho
    rw [h] at ho
    cases ho
  | ok r =>
    exact ⟨r.1, r.2, rfl, C19_queries_frame Trie.empty reachable_empty 0 _ hq r.1 r.2 h⟩

end KisProject
